import Mathlib

/-!
Verification of the build-tool task runner: a shallow embedding of the
path-spec expander (glob_paths.go), the task-key computer and JSON payload
serialisation (ComputeTaskKey / marshalTaskPayload), the file-stamp cache
(FileStampCache), the local cache restore path (LocalCache.Restore), and an
interleaving model of the single-flight task memo (TaskMemo.Do).

File-system effects (os.Stat, doublestar.Glob, os.ReadFile, hashing,
hard-linking) are modelled as oracle fields of explicit state structures;
the pure control flow of each Go function is translated line by line.
Paths are slash-delimited strings as on POSIX, where filepath.ToSlash and
filepath.FromSlash are the identity.
-/

namespace BuildTool

/-- Result of an os.Stat call, as far as the expander inspects it:
a directory, a regular file, or some other (non-regular) entry.
A failed stat is represented by none at the call sites. -/
inductive FKind
  | regular
  | dir
  | other
deriving DecidableEq, Repr

/-- FileStamp from the stamp cache source: a persisted snapshot of file
metadata (mtime_unix_nano, size, inode, mode, uid, gid). -/
structure FileStamp where
  mtimeUnixNano : Int
  size : Int
  inode : Nat
  mode : Nat
  uid : Nat
  gid : Nat
deriving DecidableEq, Repr

/-- The ambient file system as seen by the expander and the key computer:
stat is os.Stat / fs.Stat, glob is doublestar.Glob (none models a pattern
error), statStamp is StatStamp, hashFile is the BLAKE2b-256 content hash of
a file rendered as lowercase hex (an error is a failed open or read). -/
structure GoFS where
  stat : String → Option FKind
  glob : String → Option (List String)
  statStamp : String → Option FileStamp
  hashFile : String → Except String String

/-- strings.HasPrefix, stated on the character lists so that it evaluates
by structural recursion. -/
def strStartsWith (s pre : String) : Bool :=
  pre.data.isPrefixOf s.data

/-- strings.HasSuffix on the character lists. -/
def strEndsWith (s suf : String) : Bool :=
  suf.data.isSuffixOf s.data

/-- Dropping the first n characters of a string. -/
def strDrop (s : String) (n : Nat) : String :=
  String.mk (s.data.drop n)

/-- Dropping the last character of a string. -/
def strDropLast (s : String) : String :=
  String.mk s.data.dropLast

/-- strings.TrimPrefix(s, "./"): drop one leading "./" occurrence. -/
def trimDotSlash (s : String) : String :=
  if strStartsWith s "./" then strDrop s 2 else s

/-- strings.TrimSuffix(p, "/"): drop one trailing "/" occurrence. -/
def trimSlashSuffix (p : String) : String :=
  if strEndsWith p "/" then strDropLast p else p

/-- Lexicographic strict order on character lists by code point.  Because
UTF-8 byte order and code-point order agree, this is Go's byte-wise string
order. -/
def lexLt : List Char → List Char → Bool
  | [], [] => false
  | [], _ :: _ => true
  | _ :: _, [] => false
  | a :: as, b :: bs =>
    if a.toNat < b.toNat then true
    else if b.toNat < a.toNat then false
    else lexLt as bs

/-- The Go order s < t on strings. -/
def strLt (s t : String) : Bool :=
  lexLt s.data t.data

/-- The Go order s <= t on strings. -/
def strLe (s t : String) : Bool :=
  !(strLt t s)

/-- sort.Strings: ascending byte-wise lexicographic sort. -/
def sortStrings (l : List String) : List String :=
  l.insertionSort (fun a b => strLe a b = true)

/-- hasGlobMeta from glob_paths.go: strings.ContainsAny(s, "*?[") -/
def hasGlobMeta (s : String) : Bool :=
  s.data.any fun c => c = '*' || c = '?' || c = '['

/-- parseSpec from glob_paths.go: strip turbo-style negation and the
escaped leading bang, normalise to slash form and drop a leading "./". -/
def parseSpec (raw : String) : Except String (String × Bool) :=
  if raw = "" then .error "path must not be empty"
  else
    let step : Except String (String × Bool) :=
      if strStartsWith raw "\\!" then .ok (strDrop raw 1, false)
      else if strStartsWith raw "!" then
        if strDrop raw 1 = "" then .error "negated pattern must not be empty"
        else .ok (strDrop raw 1, true)
      else .ok (raw, false)
    match step with
    | .error e => .error e
    | .ok (r, neg) =>
      let pat := trimDotSlash r
      if pat = "" then .error "path must not be empty" else .ok (pat, neg)

/-- Insertion into the seen set (a Go map used as a set). -/
def insertSet (seen : List String) (p : String) : List String :=
  if p ∈ seen then seen else p :: seen

/-- delete(seen, p) on the Go map. -/
def deleteSet (seen : List String) (p : String) : List String :=
  seen.filter fun q => q ≠ p

/-- filepath.IsAbs of the slash-form pattern on POSIX. -/
def isAbsPath (pat : String) : Bool :=
  strStartsWith pat "/"

/-- The inner loop over sorted glob matches in ExpandFileSpecs.  Returns the
updated seen set together with the number of entries added for this spec. -/
def globLoop (fs : GoFS) (raw : String) (neg : Bool) :
    List String → List String → Except String (List String × Nat)
  | seen, [] => .ok (seen, 0)
  | seen, m0 :: rest =>
    let m := trimDotSlash m0
    if m = "" then globLoop fs raw neg seen rest
    else if neg then globLoop fs raw neg (deleteSet seen m) rest
    else if m ∈ seen then globLoop fs raw neg seen rest
    else
      match fs.stat m with
      | none => .error ("stat " ++ m ++ " (from " ++ raw ++ ")")
      | some .dir => globLoop fs raw neg seen rest
      | some .other => .error ("glob " ++ raw ++ " matched non-regular path " ++ m)
      | some .regular =>
        match globLoop fs raw neg (insertSet seen m) rest with
        | .error e => .error e
        | .ok (seen', added) => .ok (seen', added + 1)

/-- The glob branch of ExpandFileSpecs for one spec. -/
def globStep (fs : GoFS) (raw pat : String) (neg : Bool) (seen : List String) :
    Except String (List String) :=
  if isAbsPath pat then .error ("glob pattern must be relative: " ++ raw)
  else
    match fs.glob pat with
    | none => .error ("glob " ++ raw)
    | some ms =>
      match globLoop fs raw neg seen (sortStrings ms) with
      | .error e => .error e
      | .ok (seen', added) =>
        if !neg && added == 0 then .error ("glob " ++ raw ++ " matched no files")
        else .ok seen'

/-- The non-glob branch of ExpandFileSpecs for one spec. -/
def litStep (fs : GoFS) (raw p : String) (neg : Bool) (seen : List String) :
    Except String (List String) :=
  if neg then
    match fs.stat p with
    | some .dir => .ok (seen.filter fun k => !(strStartsWith k (trimSlashSuffix p ++ "/")))
    | _ => .ok (deleteSet seen p)
  else
    match fs.stat p with
    | none => .error ("stat " ++ raw)
    | some .dir => .error ("path " ++ raw ++ " is a directory")
    | some .other => .error ("path " ++ raw ++ " is not a regular file")
    | some .regular => .ok (insertSet seen p)

/-- Processing of a single spec inside ExpandFileSpecs. -/
def expandStep (fs : GoFS) (seen : List String) (spec : String) :
    Except String (List String) :=
  match parseSpec spec with
  | .error e => .error e
  | .ok (pat, neg) =>
    if hasGlobMeta pat then globStep fs spec pat neg seen
    else litStep fs spec pat neg seen

/-- The main loop of ExpandFileSpecs over the spec list. -/
def expandLoop (fs : GoFS) : List String → List String → Except String (List String)
  | seen, [] => .ok seen
  | seen, s :: rest =>
    match expandStep fs seen s with
    | .error e => .error e
    | .ok seen' => expandLoop fs seen' rest

/-- ExpandFileSpecs from glob_paths.go: expand glob patterns in specs into a
sorted, de-duplicated list of slash-separated relative file paths. -/
def ExpandFileSpecs (fs : GoFS) (specs : List String) : Except String (List String) :=
  match expandLoop fs [] specs with
  | .error e => .error e
  | .ok seen => .ok (sortStrings seen)

/-! ### Canonical JSON serialisation of the task-key payload

The Go json.Encoder with SetEscapeHTML(false) writes a byte stream; since
UTF-8 encoding of a character sequence is injective, we model the byte
stream as the character list it spells. -/

/-- Lowercase hex digit, as used by the Go JSON escaper and hex.EncodeToString. -/
def hexDig : Nat → Char
  | 0 => '0' | 1 => '1' | 2 => '2' | 3 => '3' | 4 => '4'
  | 5 => '5' | 6 => '6' | 7 => '7' | 8 => '8' | 9 => '9'
  | 10 => 'a' | 11 => 'b' | 12 => 'c' | 13 => 'd' | 14 => 'e' | 15 => 'f'
  | _ => '0'

/-- The escaping of one character by the Go encoding/json string encoder with
HTML escaping disabled: quote, backslash and the common control characters
get two-character escapes, other control characters a u-escape, the line
separators U+2028/U+2029 a u-escape, everything else is written as is. -/
def escChar (c : Char) : List Char :=
  if c = '"' then ['\\', '"']
  else if c = '\\' then ['\\', '\\']
  else if c = '\n' then ['\\', 'n']
  else if c = '\r' then ['\\', 'r']
  else if c = '\t' then ['\\', 't']
  else if c.toNat < 0x20 then ['\\', 'u', '0', '0', hexDig (c.toNat / 16), hexDig (c.toNat % 16)]
  else if c.toNat = 0x2028 then ['\\', 'u', '2', '0', '2', '8']
  else if c.toNat = 0x2029 then ['\\', 'u', '2', '0', '2', '9']
  else [c]

/-- Escape a character sequence. -/
def escapeList (cs : List Char) : List Char :=
  (cs.map escChar).flatten

/-- A JSON string literal for s. -/
def qstr (s : String) : List Char :=
  '"' :: (escapeList s.data ++ ['"'])

/-- Comma-joined rendering of already-rendered JSON values. -/
def joinComma : List (List Char) → List Char
  | [] => []
  | [x] => x
  | x :: xs => x ++ ',' :: joinComma xs

/-- A JSON array of already-rendered values. -/
def arrEnc (items : List (List Char)) : List Char :=
  '[' :: (joinComma items ++ [']'])

/-- A JSON array of strings. -/
def strArr (l : List String) : List Char :=
  arrEnc (l.map qstr)

/-- The dependencies field: ComputeTaskKey builds it with
append([]string(nil), depTaskKeys...), which is a nil slice when the input
is empty, and encoding/json renders a nil slice as null. -/
def depsEnc (l : List String) : List Char :=
  if l = [] then "null".data else strArr l

/-- taskKeyInput from the key computer. -/
structure TaskKeyInput where
  path : String
  digest : String
deriving DecidableEq, Repr

/-- One {"path": ..., "digest": ...} object. -/
def inputEnc (i : TaskKeyInput) : List Char :=
  "\x7b\"path\":".data ++ qstr i.path ++ (",\"digest\":".data ++ (qstr i.digest ++ ['\x7d']))

/-- The inputs field: built with make(..., 0, n), so an empty list renders
as an empty array, never null. -/
def inputsEnc (l : List TaskKeyInput) : List Char :=
  arrEnc (l.map inputEnc)

/-- taskKeyPayload from the key computer. -/
structure TaskKeyPayload where
  version : Nat
  command : String
  dependencies : List String
  outputs : List String
  inputs : List TaskKeyInput
deriving DecidableEq, Repr

/-- marshalTaskPayload: json.Encoder output with SetEscapeHTML(false), with
the trailing newline written by Encode trimmed off, so the rendering ends at
the closing brace.  Field order is the struct order v, command,
dependencies, outputs, inputs. -/
def marshalTaskPayload (p : TaskKeyPayload) : List Char :=
  "\x7b\"v\":".data ++ (Nat.repr p.version).data
    ++ (",\"command\":".data ++ qstr p.command)
    ++ (",\"dependencies\":".data ++ depsEnc p.dependencies)
    ++ (",\"outputs\":".data ++ strArr p.outputs)
    ++ (",\"inputs\":".data ++ inputsEnc p.inputs)
    ++ ['\x7d']

/-! ### Decoder used to prove the serialisation injective -/

/-- Value of one lowercase hex digit. -/
def hexVal (c : Char) : Option Nat :=
  if '0' ≤ c ∧ c ≤ '9' then some (c.toNat - 48)
  else if 'a' ≤ c ∧ c ≤ 'f' then some (c.toNat - 87)
  else none

/-- Decode the remainder of one escape sequence to the code point it names. -/
def decodeEsc : List Char → Option (Nat × List Char)
  | [] => none
  | e :: r =>
    if e = '"' then some (0x22, r)
    else if e = '\\' then some (0x5c, r)
    else if e = 'n' then some (0x0a, r)
    else if e = 'r' then some (0x0d, r)
    else if e = 't' then some (0x09, r)
    else if e = 'u' then
      match r with
      | h1 :: h2 :: h3 :: h4 :: r' =>
        match hexVal h1, hexVal h2, hexVal h3, hexVal h4 with
        | some a, some b, some c, some d => some ((((a * 16 + b) * 16 + c) * 16 + d), r')
        | _, _, _, _ => none
      | _ => none
    else none

/-- Decode one character of a JSON string body to its code point; a closing
quote or ill-formed escape yields none. -/
def decodeOne : List Char → Option (Nat × List Char)
  | [] => none
  | c :: rest =>
    if c = '\\' then decodeEsc rest
    else if c = '"' then none
    else some (c.toNat, rest)

/-! ### File stamp cache (FileStampCache from the stamp cache source) -/

/-- stampCacheEntry: a FileStamp paired with the content digest computed for
that version of the file. -/
structure StampCacheEntry where
  stamp : FileStamp
  digest : String
deriving DecidableEq, Repr

/-- FileStampCache state: the path-keyed entry map and the dirty flag.  The
mutex and the persistence path are irrelevant to the claims. -/
structure FileStampCache where
  entries : String → Option StampCacheEntry
  dirty : Bool

/-- FileStampCache.Lookup: return the cached digest for path iff an entry
exists and the current stamp of the file equals the cached one. -/
def FileStampCache.Lookup (fs : GoFS) (c : FileStampCache) (path : String) : Option String :=
  match c.entries path with
  | none => none
  | some entry =>
    match fs.statStamp path with
    | none => none
    | some current => if entry.stamp = current then some entry.digest else none

/-- FileStampCache.Update: re-stat and store the (stamp, digest) pair and
set dirty; a stat failure silently drops the update. -/
def FileStampCache.Update (fs : GoFS) (c : FileStampCache) (path digest : String) :
    FileStampCache :=
  match fs.statStamp path with
  | none => c
  | some st =>
    { entries := fun p => if p = path then some ⟨st, digest⟩ else c.entries p
      dirty := true }

/-! ### ComputeTaskKey -/

/-- Task from the task model: id, inputs, outputs, dependencies, command,
cache flag. -/
structure GoTask where
  id : String
  inputs : List String
  outputs : List String
  dependencies : List String
  command : String
  cache : Bool

/-- The digest loop of ComputeTaskKey over the sorted expanded inputs: use
the stamp cache when the stamp matches, otherwise hash the file and record
the digest back in the cache. -/
def digestsLoop (fs : GoFS) :
    FileStampCache → List String → Except String (List TaskKeyInput × FileStampCache)
  | c, [] => .ok ([], c)
  | c, p :: rest =>
    match FileStampCache.Lookup fs c p with
    | some d =>
      match digestsLoop fs c rest with
      | .error e => .error e
      | .ok (l, c') => .ok (⟨p, d⟩ :: l, c')
    | none =>
      match fs.hashFile p with
      | .error e => .error ("hash input " ++ p ++ ": " ++ e)
      | .ok d =>
        match digestsLoop fs (FileStampCache.Update fs c p d) rest with
        | .error e => .error e
        | .ok (l, c') => .ok (⟨p, d⟩ :: l, c')

/-- The payload assembly of ComputeTaskKey: sorted dependency keys,
normalised sorted output specs, expanded and sorted inputs with digests. -/
def computeTaskPayload (fs : GoFS) (task : GoTask) (depTaskKeys : List String)
    (stamps : FileStampCache) : Except String (TaskKeyPayload × FileStampCache) :=
  let depKeys := sortStrings depTaskKeys
  let outputSpecs := sortStrings (task.outputs.map trimDotSlash)
  match ExpandFileSpecs fs task.inputs with
  | .error e => .error ("expand inputs: " ++ e)
  | .ok expanded =>
    match digestsLoop fs stamps (sortStrings expanded) with
    | .error e => .error e
    | .ok (tInputs, stamps') =>
      .ok ({ version := 1, command := task.command, dependencies := depKeys,
             outputs := outputSpecs, inputs := tInputs }, stamps')

/-- ComputeTaskKey: the hex BLAKE2b-256 digest of the canonical payload
bytes, together with those bytes and the updated stamp cache.  The hash is
a parameter of the model. -/
def ComputeTaskKey (hash : List Char → String) (fs : GoFS) (task : GoTask)
    (depTaskKeys : List String) (stamps : FileStampCache) :
    Except String (String × List Char × FileStampCache) :=
  match computeTaskPayload fs task depTaskKeys stamps with
  | .error e => .error e
  | .ok (p, stamps') => .ok (hash (marshalTaskPayload p), marshalTaskPayload p, stamps')

/-- Soundness of a stamp cache with respect to the file system: whenever
Lookup returns a digest, it is the content hash of the file (the invariant
maintained by Update, which only stores observed stamps with the digest
that was just computed for the file). -/
def Consistent (fs : GoFS) (c : FileStampCache) : Prop :=
  ∀ p d, FileStampCache.Lookup fs c p = some d → fs.hashFile p = .ok d

/-! ### LocalCache.Restore (cache.go) -/

/-- Outcome of a fallible system call that the code inspects with
errors.Is(err, os.ErrNotExist): success, not-exist, or any other error. -/
inductive RRes (α : Type)
  | ok (a : α)
  | notExist
  | otherErr
deriving DecidableEq, Repr

/-- The manifest struct parsed from tasks/key/manifest.json.  The opaque
task field is never inspected by Restore. -/
structure Manifest where
  taskKey : String
  outputs : List String
deriving DecidableEq, Repr

/-- The file-system surface used by LocalCache.Restore: os.ReadFile,
json.Unmarshal (an oracle on the raw bytes), os.Stat for the preflight,
os.MkdirAll and os.Link for the hardlink phase (false = failure).  The
os.Remove before linking has its error discarded by the code and no
observable effect on the result, so it is not modelled. -/
structure CacheFS where
  readFile : String → RRes (List Char)
  unmarshal : List Char → Option Manifest
  statFile : String → RRes Unit
  mkdirAll : String → Bool
  link : String → String → Bool

/-- filepath.Join of the cache root, "tasks" and the key. -/
def taskDir (root key : String) : String :=
  root ++ "/tasks/" ++ key

/-- The manifest path under the task directory. -/
def manifestPath (root key : String) : String :=
  taskDir root key ++ "/manifest.json"

/-- The preflight loop of Restore: every cached output must exist before
any is linked.  ok false = some file was absent (miss), error = a stat
failed for another reason. -/
def preflight (cfs : CacheFS) (tDir : String) : List String → Except String Bool
  | [] => .ok true
  | o :: rest =>
    match cfs.statFile (tDir ++ "/outputs/" ++ o) with
    | .notExist => .ok false
    | .otherErr => .error ("stat " ++ o)
    | .ok _ => preflight cfs tDir rest

/-- The hardlink loop of Restore: create parent directories and link each
cached output to its workspace location; any failure aborts. -/
def linkLoop (cfs : CacheFS) (tDir : String) : List String → Except String Unit
  | [] => .ok ()
  | o :: rest =>
    if cfs.mkdirAll o then
      if cfs.link (tDir ++ "/outputs/" ++ o) o then linkLoop cfs tDir rest
      else .error ("link " ++ o)
    else .error ("mkdir " ++ o)

/-- LocalCache.Restore: read and parse the manifest (absent manifest is a
miss), take the output list from the manifest (the caller's outputs
argument is bound but overwritten), refuse empty output lists, preflight
all cached outputs, then hardlink them into the workspace.  On success the
second component lists the restored files. -/
def LocalCache.Restore (cfs : CacheFS) (root key : String) (outputs : List String) :
    Except String (Bool × List String) :=
  let tDir := taskDir root key
  match cfs.readFile (manifestPath root key) with
  | .notExist => .ok (false, [])
  | .otherErr => .error "read manifest"
  | .ok data =>
    match cfs.unmarshal data with
    | none => .error "unmarshal manifest"
    | some manifest =>
      let outs := manifest.outputs
      if outs = [] then .ok (false, [])
      else
        match preflight cfs tDir outs with
        | .error e => .error e
        | .ok false => .ok (false, [])
        | .ok true =>
          match linkLoop cfs tDir outs with
          | .error e => .error e
          | .ok _ => .ok (true, outs)

/-! ### TaskMemo.Do: interleaving model of the single-flight memo

TaskMemo.Do is, per task id, a mutex-guarded memo map combined with a
singleflight.Group.  The memo entries for distinct ids are independent, so
the model tracks one id.  Threads are anonymous; each caller of Do is in
one of the phases below, and the scheduler interleaves the atomic sections
of the code (tryGet, flight entry, the post-entry re-check, running fn,
store, flight completion) in any order.  E is the type of the error value
a task body returns. -/

/-- Phase of the unique in-flight runner of singleflight.Do for the id:
just entered (before the re-check), committed to run fn, holding the fn
result before store, or after the store and before flight completion. -/
inductive RunnerPhase (E : Type)
  | entered
  | running
  | ran (e : E)
  | stored (e : E)
deriving DecidableEq, Repr

/-- Global state for one task id: the memo entry (some e once done-with-err
is stored), the current single-flight call with its runner phase (none when
no call is in flight), counts of callers that have not yet consulted the
memo, callers between tryGet and flight entry, and callers waiting on the
in-flight call, the multiset of results observed by finished callers, and
the number of times the task body fn has been run. -/
structure MemoState (E : Type) where
  memo : Option E
  runner : Option (RunnerPhase E)
  nReady : Nat
  nPre : Nat
  nWaiting : Nat
  finished : Multiset E
  runs : Nat

/-- Initial state: no memo entry, no flight, n concurrent callers of Do. -/
def memoInit (E : Type) (n : Nat) : MemoState E :=
  { memo := none, runner := none, nReady := n, nPre := 0, nWaiting := 0,
    finished := 0, runs := 0 }

/-- One interleaving step of the TaskMemo.Do protocol. -/
inductive MemoStep {E : Type} : MemoState E → MemoState E → Prop
  /-- tryGet finds a completed entry: the caller returns its stored error. -/
  | tryGetHit (s : MemoState E) (e : E) (h : s.memo = some e) (hn : 0 < s.nReady) :
      MemoStep s { s with nReady := s.nReady - 1, finished := e ::ₘ s.finished }
  /-- tryGet finds no completed entry: the caller proceeds to group.Do. -/
  | tryGetMiss (s : MemoState E) (h : s.memo = none) (hn : 0 < s.nReady) :
      MemoStep s { s with nReady := s.nReady - 1, nPre := s.nPre + 1 }
  /-- group.Do with no call in flight: the caller becomes the runner. -/
  | flightLead (s : MemoState E) (h : s.runner = none) (hn : 0 < s.nPre) :
      MemoStep s { s with nPre := s.nPre - 1, runner := some .entered }
  /-- group.Do with a call in flight: the caller joins the waiters. -/
  | flightJoin (s : MemoState E) (p : RunnerPhase E) (h : s.runner = some p)
      (hn : 0 < s.nPre) :
      MemoStep s { s with nPre := s.nPre - 1, nWaiting := s.nWaiting + 1 }
  /-- The post-entry re-check finds a completed entry: the runner returns it
  without running fn, completing the flight and releasing all waiters with
  the same shared result. -/
  | recheckHit (s : MemoState E) (e : E) (h : s.runner = some .entered)
      (hm : s.memo = some e) :
      MemoStep s { s with runner := none, nWaiting := 0,
                          finished := Multiset.replicate (s.nWaiting + 1) e + s.finished }
  /-- The re-check finds no entry: the runner commits to running fn. -/
  | recheckMiss (s : MemoState E) (h : s.runner = some .entered) (hm : s.memo = none) :
      MemoStep s { s with runner := some .running }
  /-- fn runs to completion with some error value e (the one counted
  execution of the task body). -/
  | runFn (s : MemoState E) (e : E) (h : s.runner = some .running) :
      MemoStep s { s with runner := some (.ran e), runs := s.runs + 1 }
  /-- store publishes (done, err) into the memo map. -/
  | storeResult (s : MemoState E) (e : E) (h : s.runner = some (.ran e)) :
      MemoStep s { s with memo := some e, runner := some (.stored e) }
  /-- The flight completes: the runner and all waiters return the shared
  result. -/
  | flightDone (s : MemoState E) (e : E) (h : s.runner = some (.stored e)) :
      MemoStep s { s with runner := none, nWaiting := 0,
                          finished := Multiset.replicate (s.nWaiting + 1) e + s.finished }

/-- Reachability from the initial state with n callers. -/
def MemoReachable {E : Type} (n : Nat) (s : MemoState E) : Prop :=
  Relation.ReflTransGen MemoStep (memoInit E n) s

/-- The inductive invariant of the memo protocol: the run counter is
determined by the memo entry and the runner phase (so it never exceeds 1);
a committed or just-finished runner implies no memo entry yet; a runner
past the store step carries exactly the memo entry; every finished caller
observed the memo entry. -/
def MemoInv {E : Type} (s : MemoState E) : Prop :=
  (s.runs = (match s.memo, s.runner with
    | some _, _ => 1
    | none, some (.ran _) => 1
    | none, some (.stored _) => 1
    | none, _ => 0)) ∧
  (s.runner = some .running → s.memo = none) ∧
  (∀ e, s.runner = some (.ran e) → s.memo = none) ∧
  (∀ e, s.runner = some (.stored e) → s.memo = some e) ∧
  (∀ e ∈ s.finished, s.memo = some e)

/-! ### Concrete fixtures used to evaluate the theorems -/

/-- A workspace with one regular file a.txt where the pattern a* matches
exactly that file. -/
def exFS : GoFS where
  stat := fun s => if s = "a.txt" then some .regular else none
  glob := fun p => if p = "a*" then some ["a.txt"] else none
  statStamp := fun _ => none
  hashFile := fun _ => .error "open"

/-- A workspace holding the files bang-keep.txt (a name with a leading
exclamation mark) and b.txt. -/
def exKeepFS : GoFS where
  stat := fun s => if s = "!keep.txt" ∨ s = "b.txt" then some .regular else none
  glob := fun _ => none
  statStamp := fun _ => none
  hashFile := fun _ => .error "open"

/-- An empty workspace: every stat and glob and hash fails. -/
def emptyFS : GoFS where
  stat := fun _ => none
  glob := fun _ => none
  statStamp := fun _ => none
  hashFile := fun _ => .error "open"

/-- A workspace for the stamp-cache claims: the path a stats to a fixed
stamp, everything else fails. -/
def stampFS : GoFS where
  stat := fun _ => none
  glob := fun _ => none
  statStamp := fun p => if p = "a" then some ⟨1, 2, 3, 4, 5, 6⟩ else none
  hashFile := fun _ => .error "open"

/-- The empty stamp cache. -/
def emptyStamps : FileStampCache where
  entries := fun _ => none
  dirty := false

/-- A task with no inputs, no outputs and no dependencies, command a. -/
def taskA : GoTask :=
  { id := "A", inputs := [], outputs := [], dependencies := [], command := "a", cache := true }

/-- Like taskA but with command b. -/
def taskB : GoTask :=
  { id := "B", inputs := [], outputs := [], dependencies := [], command := "b", cache := true }

/-- An injective stand-in for the hex BLAKE2b-256 digest, for evaluating
the key theorems on concrete inputs. -/
def mkHash (l : List Char) : String :=
  String.mk l

/-- A cache directory holding, for any key, a manifest that parses to
task_key K with the single output y, whose cached copy exists and links
successfully. -/
def hitCacheFS : CacheFS where
  readFile := fun _ => .ok ['m']
  unmarshal := fun d => if d = ['m'] then some ⟨"K", ["y"]⟩ else none
  statFile := fun _ => .ok ()
  mkdirAll := fun _ => true
  link := fun _ _ => true

/-- A cache directory with no record at all: every read reports not-exist. -/
def missCacheFS : CacheFS where
  readFile := fun _ => .notExist
  unmarshal := fun _ => none
  statFile := fun _ => .notExist
  mkdirAll := fun _ => false
  link := fun _ _ => false

/-! ## Theorems -/

/-- C9: Stamp-cache update is atomic on failure: when the re-stat of the
path fails, Update returns the cache unchanged (entry map and dirty flag
alike); when it succeeds with stamp st, Update stores (st, digest) under
the path, sets the dirty flag, and leaves every other entry unchanged. -/
theorem stamp_update_atomic (fs : GoFS) (c : FileStampCache) (path digest : String) :
    (fs.statStamp path = none → FileStampCache.Update fs c path digest = c) ∧
    (∀ st, fs.statStamp path = some st →
      (FileStampCache.Update fs c path digest).entries path = some ⟨st, digest⟩ ∧
      (FileStampCache.Update fs c path digest).dirty = true ∧
      ∀ q, q ≠ path → (FileStampCache.Update fs c path digest).entries q = c.entries q) := by
  constructor
  · intro h
    simp [FileStampCache.Update, h]
  · intro st h
    refine ⟨?_, ?_, ?_⟩
    · simp [FileStampCache.Update, h]
    · simp [FileStampCache.Update, h]
    · intro q hq
      simp [FileStampCache.Update, h, hq]

/-- Witness for stamp_update_atomic: on the concrete stampFS the update at
the un-stattable path b is dropped and the update at a is stored. -/
theorem stamp_update_atomic_witness :
    FileStampCache.Update stampFS emptyStamps "b" "d" = emptyStamps ∧
    (FileStampCache.Update stampFS emptyStamps "a" "d").entries "a"
      = some ⟨⟨1, 2, 3, 4, 5, 6⟩, "d"⟩ ∧
    (FileStampCache.Update stampFS emptyStamps "a" "d").dirty = true :=
  ⟨(stamp_update_atomic stampFS emptyStamps "b" "d").1 rfl,
   ((stamp_update_atomic stampFS emptyStamps "a" "d").2 ⟨1, 2, 3, 4, 5, 6⟩ rfl).1,
   ((stamp_update_atomic stampFS emptyStamps "a" "d").2 ⟨1, 2, 3, 4, 5, 6⟩ rfl).2.1⟩

/-- C3: the declared-outputs argument of Restore is ignored: the result is
the same function of the cache state for any two argument lists, and on a
hit the restored files are exactly the outputs of the manifest stored at
tasks/key/manifest.json. -/
theorem restore_ignores_declared (cfs : CacheFS) (root key : String) (o1 o2 : List String) :
    LocalCache.Restore cfs root key o1 = LocalCache.Restore cfs root key o2 ∧
    (∀ files, LocalCache.Restore cfs root key o1 = .ok (true, files) →
      ∃ data m, cfs.readFile (manifestPath root key) = .ok data ∧
        cfs.unmarshal data = some m ∧ files = m.outputs) := by
  refine ⟨rfl, ?_⟩
  intro files h
  unfold LocalCache.Restore at h
  cases hr : cfs.readFile (manifestPath root key) with
  | notExist => simp only [hr] at h; simp at h
  | otherErr => simp only [hr] at h; simp at h
  | ok data =>
    simp only [hr] at h
    cases hu : cfs.unmarshal data with
    | none => simp only [hu] at h; simp at h
    | some m =>
      simp only [hu] at h
      refine ⟨data, m, rfl, hu, ?_⟩
      by_cases he : m.outputs = []
      · simp [he] at h
      · simp only [he, if_false] at h
        cases hp : preflight cfs (taskDir root key) m.outputs with
        | error e => simp only [hp] at h; simp at h
        | ok b =>
          simp only [hp] at h
          cases b with
          | false => simp at h
          | true =>
            cases hl : linkLoop cfs (taskDir root key) m.outputs with
            | error e => simp only [hl] at h; simp at h
            | ok u =>
              simp only [hl] at h
              simp at h
              exact h.symm

/-- Witness for restore_ignores_declared on the concrete hit cache. -/
theorem restore_ignores_declared_witness :
    LocalCache.Restore hitCacheFS "r" "K" ["p"] = LocalCache.Restore hitCacheFS "r" "K" ["q"] ∧
    ∃ data m, hitCacheFS.readFile (manifestPath "r" "K") = .ok data ∧
      hitCacheFS.unmarshal data = some m ∧ ["y"] = m.outputs :=
  ⟨(restore_ignores_declared hitCacheFS "r" "K" ["p"] ["q"]).1,
   (restore_ignores_declared hitCacheFS "r" "K" ["p"] ["q"]).2 ["y"] rfl⟩

/-- Preflight reports a miss when some output is absent and no other stat
error occurs first. -/
theorem preflight_miss_of_notExist (cfs : CacheFS) (tDir : String) :
    ∀ outs : List String,
      (∀ o ∈ outs, cfs.statFile (tDir ++ "/outputs/" ++ o) ≠ .otherErr) →
      (∃ o ∈ outs, cfs.statFile (tDir ++ "/outputs/" ++ o) = .notExist) →
      preflight cfs tDir outs = .ok false := by
  intro outs
  induction outs with
  | nil => intro _ h; simp at h
  | cons o rest ih =>
    intro hne hex
    cases hs : cfs.statFile (tDir ++ "/outputs/" ++ o) with
    | notExist => simp [preflight, hs]
    | otherErr => exact absurd hs (hne o (by simp))
    | ok u =>
      simp only [preflight, hs]
      apply ih
      · intro x hx; exact hne x (by simp [hx])
      · rcases hex with ⟨x, hx, hsx⟩
        rcases List.mem_cons.mp hx with hxo | hxr
        · subst hxo; rw [hs] at hsx; cases hsx
        · exact ⟨x, hxr, hsx⟩

/-- A preflight miss pinpoints an absent output. -/
theorem preflight_notExist_of_miss (cfs : CacheFS) (tDir : String) :
    ∀ outs : List String, preflight cfs tDir outs = .ok false →
      ∃ o ∈ outs, cfs.statFile (tDir ++ "/outputs/" ++ o) = .notExist := by
  intro outs
  induction outs with
  | nil => intro h; simp [preflight] at h
  | cons o rest ih =>
    intro h
    cases hs : cfs.statFile (tDir ++ "/outputs/" ++ o) with
    | notExist => exact ⟨o, by simp, hs⟩
    | otherErr => rw [preflight, hs] at h; cases h
    | ok u =>
      rw [preflight, hs] at h
      rcases ih h with ⟨x, hx, hsx⟩
      exact ⟨x, by simp [hx], hsx⟩

/-- Preflight surfaces an error when no output is absent but some stat
fails for another reason. -/
theorem preflight_error_of_otherErr (cfs : CacheFS) (tDir : String) :
    ∀ outs : List String,
      (∀ o ∈ outs, cfs.statFile (tDir ++ "/outputs/" ++ o) ≠ .notExist) →
      (∃ o ∈ outs, cfs.statFile (tDir ++ "/outputs/" ++ o) = .otherErr) →
      ∃ e, preflight cfs tDir outs = .error e := by
  intro outs
  induction outs with
  | nil => intro _ h; simp at h
  | cons o rest ih =>
    intro hne hex
    cases hs : cfs.statFile (tDir ++ "/outputs/" ++ o) with
    | notExist => exact absurd hs (hne o (by simp))
    | otherErr => exact ⟨"stat " ++ o, by simp [preflight, hs]⟩
    | ok u =>
      rw [preflight, hs]
      apply ih
      · intro x hx; exact hne x (by simp [hx])
      · rcases hex with ⟨x, hx, hsx⟩
        rcases List.mem_cons.mp hx with hxo | hxr
        · subst hxo; rw [hs] at hsx; cases hsx
        · exact ⟨x, hxr, hsx⟩

/-- C4: Restore misses (false, no error) precisely on an absent manifest,
an empty manifest output list, or an absent cached output file; a failed
manifest read or a preflight stat failure that is not a missing file
surfaces as an error.  The absent-output direction is stated under the
assumption that no other stat error fires first, since the preflight scan
stops at the first failure of either kind. -/
theorem restore_miss_characterisation (cfs : CacheFS) (root key : String) (outs : List String) :
    (cfs.readFile (manifestPath root key) = .notExist →
      LocalCache.Restore cfs root key outs = .ok (false, [])) ∧
    (∀ data m, cfs.readFile (manifestPath root key) = .ok data →
      cfs.unmarshal data = some m → m.outputs = [] →
      LocalCache.Restore cfs root key outs = .ok (false, [])) ∧
    (∀ data m, cfs.readFile (manifestPath root key) = .ok data →
      cfs.unmarshal data = some m →
      (∀ o ∈ m.outputs, cfs.statFile (taskDir root key ++ "/outputs/" ++ o) ≠ .otherErr) →
      (∃ o ∈ m.outputs, cfs.statFile (taskDir root key ++ "/outputs/" ++ o) = .notExist) →
      LocalCache.Restore cfs root key outs = .ok (false, [])) ∧
    (LocalCache.Restore cfs root key outs = .ok (false, []) →
      cfs.readFile (manifestPath root key) = .notExist ∨
      ∃ data m, cfs.readFile (manifestPath root key) = .ok data ∧ cfs.unmarshal data = some m ∧
        (m.outputs = [] ∨
         ∃ o ∈ m.outputs, cfs.statFile (taskDir root key ++ "/outputs/" ++ o) = .notExist)) ∧
    (cfs.readFile (manifestPath root key) = .otherErr →
      ∃ e, LocalCache.Restore cfs root key outs = .error e) ∧
    (∀ data m, cfs.readFile (manifestPath root key) = .ok data →
      cfs.unmarshal data = some m → m.outputs ≠ [] →
      (∀ o ∈ m.outputs, cfs.statFile (taskDir root key ++ "/outputs/" ++ o) ≠ .notExist) →
      (∃ o ∈ m.outputs, cfs.statFile (taskDir root key ++ "/outputs/" ++ o) = .otherErr) →
      ∃ e, LocalCache.Restore cfs root key outs = .error e) := by
  refine ⟨?_, ?_, ?_, ?_, ?_, ?_⟩
  · intro h
    unfold LocalCache.Restore
    simp only [h]
  · intro data m hr hu he
    unfold LocalCache.Restore
    simp only [hr, hu]
    simp [he]
  · intro data m hr hu hne hex
    unfold LocalCache.Restore
    simp only [hr, hu]
    have hp := preflight_miss_of_notExist cfs (taskDir root key) m.outputs hne hex
    have hnil : m.outputs ≠ [] := by
      rcases hex with ⟨o, ho, _⟩
      intro hc; rw [hc] at ho; cases ho
    simp [hnil, hp]
  · intro h
    unfold LocalCache.Restore at h
    cases hr : cfs.readFile (manifestPath root key) with
    | notExist => exact Or.inl rfl
    | otherErr => simp only [hr] at h; simp at h
    | ok data =>
      simp only [hr] at h
      cases hu : cfs.unmarshal data with
      | none => simp only [hu] at h; simp at h
      | some m =>
        simp only [hu] at h
        refine Or.inr ⟨data, m, rfl, hu, ?_⟩
        by_cases he : m.outputs = []
        · exact Or.inl he
        · simp only [he, if_false] at h
          cases hp : preflight cfs (taskDir root key) m.outputs with
          | error e => simp only [hp] at h; simp at h
          | ok b =>
            simp only [hp] at h
            cases b with
            | false => exact Or.inr (preflight_notExist_of_miss cfs (taskDir root key) m.outputs hp)
            | true =>
              cases hl : linkLoop cfs (taskDir root key) m.outputs with
              | error e => simp only [hl] at h; simp at h
              | ok u => simp only [hl] at h; simp at h
  · intro h
    refine ⟨"read manifest", ?_⟩
    unfold LocalCache.Restore
    simp only [h]
  · intro data m hr hu hnil hne hex
    rcases preflight_error_of_otherErr cfs (taskDir root key) m.outputs hne hex with ⟨e, hp⟩
    refine ⟨e, ?_⟩
    unfold LocalCache.Restore
    simp only [hr, hu]
    simp [hnil, hp]

/-- Witness for restore_miss_characterisation: an absent manifest is a
miss on the concrete empty cache. -/
theorem restore_miss_characterisation_witness :
    LocalCache.Restore missCacheFS "r" "K" ["y"] = .ok (false, []) :=
  (restore_miss_characterisation missCacheFS "r" "K" ["y"]).1 rfl

/-! ### Order theory for the byte-wise string sort -/

theorem string_mk_inj {s t : String} (h : s.data = t.data) : s = t := by
  cases s; cases t; simp_all

theorem char_toNat_inj {a b : Char} (h : a.toNat = b.toNat) : a = b :=
  Char.eq_of_val_eq (UInt32.ext h)

theorem lexLt_self : ∀ l : List Char, lexLt l l = false := by
  intro l
  induction l with
  | nil => rfl
  | cons a as ih => simp [lexLt, ih]

theorem lexLt_eq_of_not_lt :
    ∀ a b : List Char, lexLt a b = false → lexLt b a = false → a = b := by
  intro a
  induction a with
  | nil =>
    intro b h1 _
    cases b with
    | nil => rfl
    | cons b bs => simp [lexLt] at h1
  | cons a as ih =>
    intro b h1 h2
    cases b with
    | nil => simp [lexLt] at h2
    | cons b bs =>
      rcases Nat.lt_trichotomy a.toNat b.toNat with hlt | heq | hgt
      · simp [lexLt, hlt] at h1
      · have hne : ¬ a.toNat < b.toNat := by omega
        have hne' : ¬ b.toNat < a.toNat := by omega
        simp only [lexLt, hne, hne', if_false] at h1 h2
        rw [char_toNat_inj heq, ih bs h1 h2]
      · simp [lexLt, hgt] at h2

theorem lexLt_trans :
    ∀ a b c : List Char, lexLt a b = true → lexLt b c = true → lexLt a c = true := by
  intro a
  induction a with
  | nil =>
    intro b c h1 h2
    cases b with
    | nil => simp [lexLt] at h1
    | cons b bs =>
      cases c with
      | nil => simp [lexLt] at h2
      | cons c cs => rfl
  | cons a as ih =>
    intro b c h1 h2
    cases b with
    | nil => simp [lexLt] at h1
    | cons b bs =>
      cases c with
      | nil => simp [lexLt] at h2
      | cons c cs =>
        rcases Nat.lt_trichotomy a.toNat b.toNat with hab | hab | hab <;>
          rcases Nat.lt_trichotomy b.toNat c.toNat with hbc | hbc | hbc
        · simp [lexLt]; omega
        · simp [lexLt]; omega
        · simp [lexLt, hbc, Nat.lt_asymm hbc] at h2
        · simp [lexLt]; omega
        · have hne : ¬ a.toNat < b.toNat := by omega
          have hne' : ¬ b.toNat < a.toNat := by omega
          have hne2 : ¬ b.toNat < c.toNat := by omega
          have hne2' : ¬ c.toNat < b.toNat := by omega
          simp only [lexLt, hne, hne', hne2, hne2', if_false] at h1 h2
          have hac : ¬ a.toNat < c.toNat := by omega
          have hca : ¬ c.toNat < a.toNat := by omega
          simp only [lexLt, hac, hca, if_false]
          exact ih bs cs h1 h2
        · simp [lexLt, hbc, Nat.lt_asymm hbc] at h2
        · simp [lexLt, hab, Nat.lt_asymm hab] at h1
        · simp [lexLt, hab, Nat.lt_asymm hab] at h1
        · simp [lexLt, hab, Nat.lt_asymm hab] at h1

theorem lexLt_asymm {a b : List Char} (h : lexLt a b = true) : lexLt b a = false := by
  by_contra hc
  have hb : lexLt b a = true := by
    cases hg : lexLt b a
    · exact absurd hg hc
    · rfl
  have := lexLt_trans a b a h hb
  rw [lexLt_self] at this
  cases this

instance : IsTotal String (fun a b => strLe a b = true) := by
  constructor
  intro a b
  simp only [strLe, strLt, Bool.not_eq_true']
  cases h1 : lexLt b.data a.data
  · exact Or.inl rfl
  · exact Or.inr (lexLt_asymm h1)

instance : IsTrans String (fun a b => strLe a b = true) := by
  constructor
  intro a b c h1 h2
  simp only [strLe, strLt, Bool.not_eq_true'] at h1 h2 ⊢
  cases hca : lexLt c.data a.data
  · rfl
  · exfalso
    cases hcb : lexLt c.data b.data
    · cases hba : lexLt b.data a.data
      · have := lexLt_eq_of_not_lt _ _ hcb (by
          cases hbc : lexLt b.data c.data
          · rfl
          · have := lexLt_trans _ _ _ hbc hca
            rw [hba] at this
            cases this)
        rw [this, hba] at hca
        cases hca
      · rw [hba] at h1
        cases h1
    · rw [hcb] at h2
      cases h2

instance : IsAntisymm String (fun a b => strLe a b = true) := by
  constructor
  intro a b h1 h2
  simp only [strLe, strLt, Bool.not_eq_true'] at h1 h2
  exact string_mk_inj (lexLt_eq_of_not_lt _ _ h2 h1)

theorem strLt_of_le_of_ne {a b : String} (h : strLe a b = true) (hne : a ≠ b) :
    strLt a b = true := by
  simp only [strLe, strLt, Bool.not_eq_true'] at h
  cases hab : lexLt a.data b.data
  · exact absurd (string_mk_inj (lexLt_eq_of_not_lt _ _ hab h)) hne
  · simp [strLt, hab]

theorem sortStrings_sorted (l : List String) :
    List.Sorted (fun a b => strLe a b = true) (sortStrings l) :=
  List.sorted_insertionSort _ l

theorem sortStrings_perm (l : List String) : (sortStrings l).Perm l :=
  List.perm_insertionSort _ l

theorem sortStrings_nodup {l : List String} (h : l.Nodup) : (sortStrings l).Nodup :=
  ((sortStrings_perm l).nodup_iff).mpr h

theorem sorted_strLt_of_le_nodup {l : List String}
    (hs : List.Sorted (fun a b => strLe a b = true) l) (hn : l.Nodup) :
    List.Pairwise (fun a b => strLt a b = true) l :=
  (List.Pairwise.and hs hn).imp fun h => strLt_of_le_of_ne h.1 h.2

theorem sortStrings_eq_of_sorted {l : List String}
    (hs : List.Sorted (fun a b => strLe a b = true) l) : sortStrings l = l :=
  List.eq_of_perm_of_sorted (sortStrings_perm l) (sortStrings_sorted l) hs

/-! ### Soundness of the expander loop -/

theorem mem_insertSet {seen : List String} {p x : String} :
    x ∈ insertSet seen p ↔ x = p ∨ x ∈ seen := by
  unfold insertSet
  by_cases h : p ∈ seen
  · simp only [h, if_true]
    constructor
    · exact Or.inr
    · rintro (rfl | hx)
      · exact h
      · exact hx
  · simp [h]

theorem insertSet_nodup {seen : List String} (h : seen.Nodup) (p : String) :
    (insertSet seen p).Nodup := by
  unfold insertSet
  by_cases hp : p ∈ seen
  · simpa [hp]
  · simpa [hp]

theorem parseSpec_pat_ne_empty {raw pat : String} {neg : Bool}
    (h : parseSpec raw = .ok (pat, neg)) : pat ≠ "" := by
  unfold parseSpec at h
  by_cases h0 : raw = ""
  · simp [h0] at h
  · simp only [h0, if_false] at h
    by_cases h1 : strStartsWith raw "\\!" = true
    · simp only [h1, if_true] at h
      by_cases h2 : trimDotSlash (strDrop raw 1) = "" <;> simp_all
    · simp only [h1] at h
      by_cases h2 : strStartsWith raw "!" = true
      · simp only [h2, if_true] at h
        by_cases h3 : strDrop raw 1 = ""
        · simp [h3] at h
        · simp only [h3, if_false] at h
          by_cases h4 : trimDotSlash (strDrop raw 1) = "" <;> simp_all
      · simp only [h2] at h
        by_cases h3 : trimDotSlash raw = "" <;> simp_all

theorem globLoop_sound (fs : GoFS) (raw : String) (neg : Bool) :
    ∀ ms seen seen' n, globLoop fs raw neg seen ms = .ok (seen', n) →
      (seen.Nodup → seen'.Nodup) ∧
      (∀ x ∈ seen', x ∈ seen ∨ (fs.stat x = some .regular ∧ x ≠ "")) := by
  intro ms
  induction ms with
  | nil =>
    intro seen seen' n h
    unfold globLoop at h
    injection h with h'
    injection h' with h1 h2
    subst h1
    exact ⟨id, fun x hx => Or.inl hx⟩
  | cons m0 rest ih =>
    intro seen seen' n h
    unfold globLoop at h
    by_cases hm : trimDotSlash m0 = ""
    · rw [if_pos hm] at h
      exact ih seen seen' n h
    · rw [if_neg hm] at h
      cases neg with
      | true =>
        rw [if_pos rfl] at h
        rcases ih _ _ _ h with ⟨hnd, hmem⟩
        refine ⟨fun hn => hnd (hn.filter _), fun x hx => ?_⟩
        rcases hmem x hx with hx' | hgood
        · exact Or.inl (List.mem_of_mem_filter hx')
        · exact Or.inr hgood
      | false =>
        rw [if_neg (by simp)] at h
        by_cases hmem0 : trimDotSlash m0 ∈ seen
        · rw [if_pos hmem0] at h
          exact ih seen seen' n h
        · rw [if_neg hmem0] at h
          cases hst : fs.stat (trimDotSlash m0) with
          | none => rw [hst] at h; cases h
          | some k =>
            cases k with
            | dir => rw [hst] at h; exact ih seen seen' n h
            | other => rw [hst] at h; cases h
            | regular =>
              rw [hst] at h
              cases hrec : globLoop fs raw false (insertSet seen (trimDotSlash m0)) rest with
              | error e => rw [hrec] at h; cases h
              | ok p =>
                obtain ⟨s', a⟩ := p
                rw [hrec] at h
                injection h with h'
                injection h' with h1 h2
                subst h1
                rcases ih _ _ _ hrec with ⟨hnd, hmem⟩
                refine ⟨fun hn => hnd (insertSet_nodup hn _), fun x hx => ?_⟩
                rcases hmem x hx with hx' | hgood
                · rcases mem_insertSet.mp hx' with rfl | hx''
                  · exact Or.inr ⟨hst, hm⟩
                  · exact Or.inl hx''
                · exact Or.inr hgood

theorem litStep_sound (fs : GoFS) (raw p : String) (neg : Bool) (seen seen' : List String)
    (h : litStep fs raw p neg seen = .ok seen') :
    (seen.Nodup → seen'.Nodup) ∧
    (∀ x ∈ seen', x ∈ seen ∨ (x = p ∧ fs.stat p = some .regular)) := by
  unfold litStep at h
  cases neg with
  | true =>
    rw [if_pos rfl] at h
    cases hst : fs.stat p with
    | none =>
      rw [hst] at h
      injection h with h'
      subst h'
      exact ⟨fun hn => hn.filter _, fun x hx => Or.inl (List.mem_of_mem_filter hx)⟩
    | some k =>
      cases k <;> rw [hst] at h <;> injection h with h' <;> subst h' <;>
        exact ⟨fun hn => hn.filter _, fun x hx => Or.inl (List.mem_of_mem_filter hx)⟩
  | false =>
    rw [if_neg (by simp)] at h
    cases hst : fs.stat p with
    | none => rw [hst] at h; cases h
    | some k =>
      cases k with
      | dir => rw [hst] at h; cases h
      | other => rw [hst] at h; cases h
      | regular =>
        rw [hst] at h
        injection h with h'
        subst h'
        refine ⟨fun hn => insertSet_nodup hn _, fun x hx => ?_⟩
        rcases mem_insertSet.mp hx with hxp | hx'
        · exact Or.inr ⟨hxp, rfl⟩
        · exact Or.inl hx'

theorem expandStep_sound (fs : GoFS) (seen : List String) (s : String) (seen' : List String)
    (h : expandStep fs seen s = .ok seen') :
    (seen.Nodup → seen'.Nodup) ∧
    (∀ x ∈ seen', x ∈ seen ∨ (fs.stat x = some .regular ∧ x ≠ "")) := by
  unfold expandStep at h
  cases hp : parseSpec s with
  | error e => rw [hp] at h; cases h
  | ok pr =>
    obtain ⟨pat, neg⟩ := pr
    simp only [hp] at h
    by_cases hg : hasGlobMeta pat = true
    · rw [if_pos hg] at h
      unfold globStep at h
      by_cases ha : isAbsPath pat = true
      · rw [if_pos ha] at h; cases h
      · rw [if_neg ha] at h
        cases hgl : fs.glob pat with
        | none => simp only [hgl] at h; cases h
        | some ms =>
          simp only [hgl] at h
          cases hloop : globLoop fs s neg seen (sortStrings ms) with
          | error e => simp only [hloop] at h; cases h
          | ok pr2 =>
            obtain ⟨s2, a2⟩ := pr2
            simp only [hloop] at h
            rcases globLoop_sound fs s neg (sortStrings ms) seen s2 a2 hloop with ⟨hnd, hmem⟩
            by_cases hz : (!neg && a2 == 0) = true
            · rw [if_pos hz] at h; cases h
            · rw [if_neg hz] at h
              injection h with h'
              subst h'
              exact ⟨hnd, hmem⟩
    · rw [if_neg hg] at h
      rcases litStep_sound fs s pat neg seen seen' h with ⟨hnd, hmem⟩
      refine ⟨hnd, fun x hx => ?_⟩
      rcases hmem x hx with hx' | ⟨rfl, hst⟩
      · exact Or.inl hx'
      · exact Or.inr ⟨hst, parseSpec_pat_ne_empty hp⟩

theorem expandLoop_sound (fs : GoFS) :
    ∀ specs seen seen', expandLoop fs seen specs = .ok seen' →
      (seen.Nodup → seen'.Nodup) ∧
      (∀ x ∈ seen', x ∈ seen ∨ (fs.stat x = some .regular ∧ x ≠ "")) := by
  intro specs
  induction specs with
  | nil =>
    intro seen seen' h
    injection h with h'
    subst h'
    exact ⟨id, fun x hx => Or.inl hx⟩
  | cons sp rest ih =>
    intro seen seen' h
    unfold expandLoop at h
    cases hs : expandStep fs seen sp with
    | error e => rw [hs] at h; cases h
    | ok seen1 =>
      rw [hs] at h
      rcases expandStep_sound fs seen sp seen1 hs with ⟨hnd1, hmem1⟩
      rcases ih seen1 seen' h with ⟨hnd2, hmem2⟩
      refine ⟨fun hn => hnd2 (hnd1 hn), fun x hx => ?_⟩
      rcases hmem2 x hx with hx' | hgood
      · exact hmem1 x hx'
      · exact Or.inr hgood

/-- C8: every successful expansion returns a list that is strictly sorted
in byte-wise ascending order (hence duplicate-free). -/
theorem expand_result_strictly_sorted (fs : GoFS) (specs out : List String)
    (h : ExpandFileSpecs fs specs = .ok out) :
    List.Pairwise (fun a b => strLt a b = true) out := by
  unfold ExpandFileSpecs at h
  cases hl : expandLoop fs [] specs with
  | error e => rw [hl] at h; cases h
  | ok seen =>
    rw [hl] at h
    injection h with h'
    subst h'
    have hn : seen.Nodup := (expandLoop_sound fs specs [] seen hl).1 List.nodup_nil
    exact sorted_strLt_of_le_nodup (sortStrings_sorted seen) (sortStrings_nodup hn)

/-- Witness for expand_result_strictly_sorted on a concrete workspace. -/
theorem expand_result_strictly_sorted_witness :
    ExpandFileSpecs exKeepFS ["b.txt", "\\!keep.txt"] = .ok ["!keep.txt", "b.txt"] ∧
    List.Pairwise (fun a b => strLt a b = true) ["!keep.txt", "b.txt"] :=
  ⟨rfl, expand_result_strictly_sorted exKeepFS ["b.txt", "\\!keep.txt"] _ rfl⟩

/-! ### Dispatch between the literal and the glob branch -/

theorem expandStep_eq_litStep (fs : GoFS) (seen : List String) (spec pat : String) (neg : Bool)
    (hp : parseSpec spec = .ok (pat, neg)) (hg : hasGlobMeta pat = false) :
    expandStep fs seen spec = litStep fs spec pat neg seen := by
  unfold expandStep
  simp [hp, hg]

theorem expandStep_eq_globStep (fs : GoFS) (seen : List String) (spec pat : String) (neg : Bool)
    (hp : parseSpec spec = .ok (pat, neg)) (hg : hasGlobMeta pat = true) :
    expandStep fs seen spec = globStep fs spec pat neg seen := by
  unfold expandStep
  simp [hp, hg]

theorem litStep_stat_congr (fs1 fs2 : GoFS) (raw p : String) (neg : Bool) (seen : List String)
    (h : fs1.stat = fs2.stat) :
    litStep fs1 raw p neg seen = litStep fs2 raw p neg seen := by
  unfold litStep
  rw [h]

/-- C10: glob interpretation triggers exactly on the characters star,
question mark and opening bracket: hasGlobMeta holds iff one of them
occurs; a spec whose parsed pattern has none of them is handled by the
literal stat-and-add (or literal-removal) branch and never consults the
glob matcher, even when other doublestar syntax such as braces occurs;
a pattern containing one of them is handed to the glob branch. -/
theorem glob_meta_dispatch :
    (∀ s : String, hasGlobMeta s = true ↔ ('*' ∈ s.data ∨ '?' ∈ s.data ∨ '[' ∈ s.data)) ∧
    (∀ (fs1 fs2 : GoFS) (seen : List String) (spec pat : String) (neg : Bool),
      parseSpec spec = .ok (pat, neg) → hasGlobMeta pat = false → fs1.stat = fs2.stat →
      expandStep fs1 seen spec = expandStep fs2 seen spec) ∧
    (∀ (fs : GoFS) (seen : List String) (spec pat : String) (neg : Bool),
      parseSpec spec = .ok (pat, neg) → hasGlobMeta pat = false →
      expandStep fs seen spec = litStep fs spec pat neg seen) ∧
    (∀ (fs : GoFS) (seen : List String) (spec pat : String) (neg : Bool),
      parseSpec spec = .ok (pat, neg) → hasGlobMeta pat = true →
      expandStep fs seen spec = globStep fs spec pat neg seen) := by
  refine ⟨?_, ?_, expandStep_eq_litStep, expandStep_eq_globStep⟩
  · intro s
    unfold hasGlobMeta
    rw [List.any_eq_true]
    constructor
    · rintro ⟨c, hc, hc'⟩
      simp only [Bool.or_eq_true, decide_eq_true_eq] at hc'
      rcases hc' with (rfl | rfl) | rfl
      · exact Or.inl hc
      · exact Or.inr (Or.inl hc)
      · exact Or.inr (Or.inr hc)
    · rintro (hc | hc | hc)
      · exact ⟨'*', hc, by simp⟩
      · exact ⟨'?', hc, by simp⟩
      · exact ⟨'[', hc, by simp⟩
  · intro fs1 fs2 seen spec pat neg hp hg hstat
    rw [expandStep_eq_litStep fs1 seen spec pat neg hp hg,
        expandStep_eq_litStep fs2 seen spec pat neg hp hg]
    exact litStep_stat_congr fs1 fs2 spec pat neg seen hstat

/-- Witness for glob_meta_dispatch: a brace spec is literal, a star spec
is a glob. -/
theorem glob_meta_dispatch_witness :
    hasGlobMeta "a\x7bb\x7d" = false ∧ hasGlobMeta "a*" = true ∧
    expandStep emptyFS [] "a\x7bb\x7d" = litStep emptyFS "a\x7bb\x7d" "a\x7bb\x7d" false [] ∧
    expandStep exFS [] "a*" = globStep exFS "a*" "a*" false [] :=
  ⟨rfl, rfl,
   glob_meta_dispatch.2.2.1 emptyFS [] "a\x7bb\x7d" "a\x7bb\x7d" false rfl rfl,
   glob_meta_dispatch.2.2.2 exFS [] "a*" "a*" false rfl rfl⟩

/-! ### The no-match error condition of a glob spec -/

theorem globLoop_neg_ok (fs : GoFS) (raw : String) :
    ∀ ms seen, ∃ seen', globLoop fs raw true seen ms = .ok (seen', 0) := by
  intro ms
  induction ms with
  | nil => intro seen; exact ⟨seen, rfl⟩
  | cons m0 rest ih =>
    intro seen
    unfold globLoop
    by_cases hm : trimDotSlash m0 = ""
    · rw [if_pos hm]; exact ih seen
    · rw [if_neg hm, if_pos rfl]; exact ih _

theorem globLoop_added_iff (fs : GoFS) (raw : String) :
    ∀ ms seen,
      (∀ m ∈ ms, trimDotSlash m ≠ "" →
        fs.stat (trimDotSlash m) = some .regular ∨ fs.stat (trimDotSlash m) = some .dir) →
      ∃ seen' n, globLoop fs raw false seen ms = .ok (seen', n) ∧
        (n = 0 ↔ ∀ m ∈ ms, trimDotSlash m = "" ∨ fs.stat (trimDotSlash m) = some .dir ∨
          trimDotSlash m ∈ seen) := by
  intro ms
  induction ms with
  | nil => intro seen _; exact ⟨seen, 0, rfl, by simp⟩
  | cons m0 rest ih =>
    intro seen hstat
    have hrest : ∀ m ∈ rest, trimDotSlash m ≠ "" →
        fs.stat (trimDotSlash m) = some .regular ∨ fs.stat (trimDotSlash m) = some .dir :=
      fun m hm => hstat m (List.mem_cons_of_mem _ hm)
    unfold globLoop
    by_cases hm : trimDotSlash m0 = ""
    · rw [if_pos hm]
      rcases ih seen hrest with ⟨s', n, heq, hiff⟩
      refine ⟨s', n, heq, ?_⟩
      rw [hiff]
      simp [List.forall_mem_cons, hm]
    · rw [if_neg hm, if_neg (by simp)]
      by_cases hmem : trimDotSlash m0 ∈ seen
      · rw [if_pos hmem]
        rcases ih seen hrest with ⟨s', n, heq, hiff⟩
        refine ⟨s', n, heq, ?_⟩
        rw [hiff]
        simp [List.forall_mem_cons, hmem]
      · rw [if_neg hmem]
        rcases hstat m0 (by simp) hm with hreg | hdir
        · simp only [hreg]
          rcases ih (insertSet seen (trimDotSlash m0)) hrest with ⟨s', n, heq, _⟩
          simp only [heq]
          refine ⟨s', n + 1, rfl, ?_⟩
          constructor
          · intro h0; omega
          · intro hall
            rcases hall m0 (by simp) with h0 | h0 | h0
            · exact absurd h0 hm
            · rw [hreg] at h0; cases h0
            · exact absurd h0 hmem
        · simp only [hdir]
          rcases ih seen hrest with ⟨s', n, heq, hiff⟩
          refine ⟨s', n, heq, ?_⟩
          rw [hiff]
          simp [List.forall_mem_cons, hdir]

/-- Counterexample to C6 as stated: the spec a* matches the regular file
a.txt (no directory filtering involved), yet expansion of [a.txt, a*]
fails with the matched-no-files error, because the match had already been
accumulated by the preceding literal spec. -/
theorem glob_no_match_counterexample :
    ExpandFileSpecs exFS ["a.txt", "a*"] = .error "glob a* matched no files" ∧
    exFS.glob "a*" = some ["a.txt"] ∧ exFS.stat "a.txt" = some FKind.regular ∧
    "a.txt" ≠ "" :=
  ⟨rfl, rfl, rfl, by decide⟩

/-- C6 amended: provided the glob call succeeds and every normalised
nonempty match stats as a regular file or a directory, a non-negated glob
spec makes expansion fail exactly when it adds no files - every match is
empty after normalisation, is a directory, or is already in the
accumulated set - and a negated glob spec never fails. -/
theorem glob_step_error_iff (fs : GoFS) (spec pat : String) (neg : Bool) (seen : List String)
    (hp : parseSpec spec = .ok (pat, neg)) (hm : hasGlobMeta pat = true)
    (habs : isAbsPath pat = false) (ms : List String) (hg : fs.glob pat = some ms)
    (hstat : ∀ m ∈ ms, trimDotSlash m ≠ "" →
      fs.stat (trimDotSlash m) = some .regular ∨ fs.stat (trimDotSlash m) = some .dir) :
    (∃ e, expandStep fs seen spec = .error e) ↔
      (neg = false ∧ ∀ m ∈ ms, trimDotSlash m = "" ∨
        fs.stat (trimDotSlash m) = some .dir ∨ trimDotSlash m ∈ seen) := by
  have hmemiff : ∀ (P : String → Prop),
      (∀ m ∈ sortStrings ms, P m) ↔ (∀ m ∈ ms, P m) := fun P =>
    ⟨fun h m hm' => h m ((sortStrings_perm ms).mem_iff.mpr hm'),
     fun h m hm' => h m ((sortStrings_perm ms).mem_iff.mp hm')⟩
  rw [expandStep_eq_globStep fs seen spec pat neg hp hm]
  unfold globStep
  rw [if_neg (by simp [habs])]
  simp only [hg]
  cases neg with
  | true =>
    rcases globLoop_neg_ok fs spec (sortStrings ms) seen with ⟨s', heq⟩
    simp only [heq]
    simp
  | false =>
    have hstat' : ∀ m ∈ sortStrings ms, trimDotSlash m ≠ "" →
        fs.stat (trimDotSlash m) = some .regular ∨ fs.stat (trimDotSlash m) = some .dir :=
      (hmemiff _).mpr hstat
    rcases globLoop_added_iff fs spec (sortStrings ms) seen hstat' with ⟨s', n, heq, hiff⟩
    simp only [heq]
    by_cases hn : n = 0
    · rw [if_pos (by simp [hn])]
      simp only [true_and]
      constructor
      · intro _
        exact (hmemiff _).mp (hiff.mp hn)
      · intro _
        exact ⟨"glob " ++ spec ++ " matched no files", rfl⟩
    · rw [if_neg (by simp [hn])]
      constructor
      · rintro ⟨e, he⟩; cases he
      · rintro ⟨-, hall⟩
        exact absurd (hiff.mpr ((hmemiff _).mpr hall)) hn

/-- Witness for glob_step_error_iff: on exFS the glob a* adds nothing new
over the accumulated set containing a.txt, so the step errors. -/
theorem glob_step_error_iff_witness :
    ∃ e, expandStep exFS ["a.txt"] "a*" = .error e :=
  (glob_step_error_iff exFS "a*" "a*" false ["a.txt"] rfl rfl rfl ["a.txt"] rfl
    (by
      intro m hm hne
      simp only [List.mem_singleton] at hm
      subst hm
      exact Or.inl rfl)).mpr
    ⟨rfl, by
      intro m hm
      simp only [List.mem_singleton] at hm
      subst hm
      exact Or.inr (Or.inr (by decide))⟩

/-! ### Idempotence of expansion on literal results -/

theorem parseSpec_literal {r : String} (h0 : r ≠ "") (h1 : strStartsWith r "\\!" = false)
    (h2 : strStartsWith r "!" = false) (h3 : strStartsWith r "./" = false) :
    parseSpec r = .ok (r, false) := by
  unfold parseSpec
  rw [if_neg h0]
  simp only [h1, h2, Bool.false_eq_true, if_false]
  have hpat : trimDotSlash r = r := by
    unfold trimDotSlash
    rw [h3]
    simp
  simp [hpat, h0]

theorem mem_foldl_insertSet :
    ∀ (l : List String) (seen : List String) (x : String),
      x ∈ l.foldl insertSet seen ↔ x ∈ seen ∨ x ∈ l := by
  intro l
  induction l with
  | nil => simp
  | cons r rest ih =>
    intro seen x
    simp only [List.foldl_cons, ih, mem_insertSet, List.mem_cons]
    tauto

theorem foldl_insertSet_nodup :
    ∀ (l : List String) (seen : List String), seen.Nodup → (l.foldl insertSet seen).Nodup := by
  intro l
  induction l with
  | nil => intro seen h; exact h
  | cons r rest ih => intro seen h; exact ih _ (insertSet_nodup h r)

theorem expandLoop_literals (fs : GoFS) :
    ∀ l seen,
      (∀ r ∈ l, r ≠ "" ∧ strStartsWith r "\\!" = false ∧ strStartsWith r "!" = false ∧
        strStartsWith r "./" = false ∧ hasGlobMeta r = false ∧ fs.stat r = some .regular) →
      expandLoop fs seen l = .ok (l.foldl insertSet seen) := by
  intro l
  induction l with
  | nil => intro seen _; rfl
  | cons r rest ih =>
    intro seen hall
    obtain ⟨h0, h1, h2, h3, h4, h5⟩ := hall r (by simp)
    have hstep : expandStep fs seen r = .ok (insertSet seen r) := by
      rw [expandStep_eq_litStep fs seen r r false (parseSpec_literal h0 h1 h2 h3) h4]
      unfold litStep
      rw [if_neg (by simp)]
      simp only [h5]
    unfold expandLoop
    simp only [hstep]
    exact ih (insertSet seen r) (fun x hx => hall x (List.mem_cons_of_mem _ hx))

/-- Counterexample to C7 as stated: on a workspace holding a file whose
name begins with an exclamation mark, the spec list with the escaped name
expands to that name, but expanding the result again parses it as a
negation and returns the empty list. -/
theorem expand_idempotence_counterexample :
    ExpandFileSpecs exKeepFS ["\\!keep.txt"] = .ok ["!keep.txt"] ∧
    ExpandFileSpecs exKeepFS ["!keep.txt"] = .ok [] ∧
    (([] : List String) ≠ ["!keep.txt"]) :=
  ⟨rfl, rfl, by simp⟩

/-- C7 amended: expansion is idempotent on results that really are
treated as literal paths when passed back: if no result entry begins with
the negation marker, its escape, or the ./ normalisation target, and none
contains a glob metacharacter, then re-expanding the result with the file
system unchanged returns it verbatim.  (As stated the claim fails because
a result may name a file whose name begins with an exclamation mark; see
expand_idempotence_counterexample.) -/
theorem expand_idempotent_on_literal_results (fs : GoFS) (specs out : List String)
    (h : ExpandFileSpecs fs specs = .ok out)
    (hlit : ∀ r ∈ out, strStartsWith r "!" = false ∧ strStartsWith r "\\!" = false ∧
      strStartsWith r "./" = false ∧ hasGlobMeta r = false) :
    ExpandFileSpecs fs out = .ok out := by
  unfold ExpandFileSpecs at h
  cases hl : expandLoop fs [] specs with
  | error e => rw [hl] at h; cases h
  | ok seen =>
    rw [hl] at h
    injection h with h'
    subst h'
    rcases expandLoop_sound fs specs [] seen hl with ⟨hnd, hmem⟩
    have hn : seen.Nodup := hnd List.nodup_nil
    have hgood : ∀ x ∈ seen, fs.stat x = some .regular ∧ x ≠ "" := by
      intro x hx
      rcases hmem x hx with hx' | hg
      · cases hx'
      · exact hg
    have hgoodOut : ∀ x ∈ sortStrings seen, fs.stat x = some .regular ∧ x ≠ "" := by
      intro x hx
      exact hgood x ((sortStrings_perm seen).mem_iff.mp hx)
    have hall : ∀ r ∈ sortStrings seen, r ≠ "" ∧ strStartsWith r "\\!" = false ∧
        strStartsWith r "!" = false ∧ strStartsWith r "./" = false ∧
        hasGlobMeta r = false ∧ fs.stat r = some .regular := by
      intro r hr
      obtain ⟨hb, he, hd, hg⟩ := hlit r hr
      obtain ⟨hs, hne⟩ := hgoodOut r hr
      exact ⟨hne, he, hb, hd, hg, hs⟩
    unfold ExpandFileSpecs
    simp only [expandLoop_literals fs (sortStrings seen) [] hall]
    have hfn : ((sortStrings seen).foldl insertSet []).Nodup :=
      foldl_insertSet_nodup (sortStrings seen) [] List.nodup_nil
    have hperm : ((sortStrings seen).foldl insertSet []).Perm (sortStrings seen) := by
      refine (List.perm_ext_iff_of_nodup hfn (sortStrings_nodup hn)).mpr ?_
      intro a
      rw [mem_foldl_insertSet]
      simp
    have heq : sortStrings ((sortStrings seen).foldl insertSet []) = sortStrings seen :=
      List.eq_of_perm_of_sorted ((sortStrings_perm _).trans hperm)
        (sortStrings_sorted _) (sortStrings_sorted seen)
    rw [heq]

/-- Witness for expand_idempotent_on_literal_results: re-expanding the
result of a successful literal expansion reproduces it. -/
theorem expand_idempotent_witness :
    ExpandFileSpecs exKeepFS ["b.txt"] = .ok ["b.txt"] :=
  expand_idempotent_on_literal_results exKeepFS ["b.txt"] ["b.txt"] rfl
    (by
      intro r hr
      simp only [List.mem_singleton] at hr
      subst hr
      exact ⟨rfl, rfl, rfl, rfl⟩)

/-! ### Unique decodability of the canonical JSON serialisation -/

theorem hexVal_hexDig : ∀ n : Nat, n < 16 → hexVal (hexDig n) = some n := by
  intro n h
  interval_cases n <;> decide

theorem decodeOne_escChar (c : Char) (r : List Char) :
    decodeOne (escChar c ++ r) = some (c.toNat, r) := by
  unfold escChar
  by_cases h1 : c = '"'
  · subst h1; rfl
  · rw [if_neg h1]
    by_cases h2 : c = '\\'
    · subst h2; rfl
    · rw [if_neg h2]
      by_cases h3 : c = '\n'
      · subst h3; rfl
      · rw [if_neg h3]
        by_cases h4 : c = '\r'
        · subst h4; rfl
        · rw [if_neg h4]
          by_cases h5 : c = '\t'
          · subst h5; rfl
          · rw [if_neg h5]
            by_cases h6 : c.toNat < 0x20
            · rw [if_pos h6]
              have hhi := hexVal_hexDig (c.toNat / 16) (by omega)
              have hlo := hexVal_hexDig (c.toNat % 16) (by omega)
              have h00 : hexVal '0' = some 0 := by decide
              simp only [List.cons_append, decodeOne, decodeEsc, if_pos rfl,
                reduceCtorEq, reduceIte, h00, hhi, hlo]
              rw [if_neg (by decide), if_neg (by decide), if_neg (by decide),
                if_neg (by decide), if_neg (by decide)]
              simp only [List.nil_append, Option.some.injEq, Prod.mk.injEq]
              exact ⟨by omega, trivial⟩
            · rw [if_neg h6]
              by_cases h7 : c.toNat = 0x2028
              · rw [if_pos h7]
                have hdec : decodeOne (['\\', 'u', '2', '0', '2', '8'] ++ r)
                    = some (0x2028, r) := rfl
                rw [hdec, h7]
              · rw [if_neg h7]
                by_cases h8 : c.toNat = 0x2029
                · rw [if_pos h8]
                  have hdec : decodeOne (['\\', 'u', '2', '0', '2', '9'] ++ r)
                      = some (0x2029, r) := rfl
                  rw [hdec, h8]
                · rw [if_neg h8]
                  simp [List.singleton_append, decodeOne, h1, h2]

theorem escapeList_nil : escapeList [] = [] := rfl

theorem escapeList_cons (c : Char) (cs : List Char) :
    escapeList (c :: cs) = escChar c ++ escapeList cs := by
  simp [escapeList]

theorem escapeList_quote_inj :
    ∀ cs1 cs2 r1 r2 : List Char,
      escapeList cs1 ++ '"' :: r1 = escapeList cs2 ++ '"' :: r2 → cs1 = cs2 ∧ r1 = r2 := by
  intro cs1
  induction cs1 with
  | nil =>
    intro cs2 r1 r2 h
    cases cs2 with
    | nil =>
      simp only [escapeList_nil, List.nil_append] at h
      injection h with _ h'
      exact ⟨rfl, h'⟩
    | cons c t =>
      exfalso
      simp only [escapeList_nil, List.nil_append, escapeList_cons, List.append_assoc] at h
      have h1 : decodeOne ('"' :: r1) = none := by simp [decodeOne]
      rw [h, decodeOne_escChar] at h1
      cases h1
  | cons c t ih =>
    intro cs2 r1 r2 h
    cases cs2 with
    | nil =>
      exfalso
      simp only [escapeList_cons, List.append_assoc, escapeList_nil, List.nil_append] at h
      have h1 : decodeOne ('"' :: r2) = none := by simp [decodeOne]
      rw [← h, decodeOne_escChar] at h1
      cases h1
    | cons c2 t2 =>
      simp only [escapeList_cons, List.append_assoc] at h
      have h1 := decodeOne_escChar c (escapeList t ++ '"' :: r1)
      rw [h, decodeOne_escChar] at h1
      injection h1 with h1'
      injection h1' with hA hB
      obtain rfl : c2 = c := char_toNat_inj hA
      rcases ih t2 r1 r2 hB.symm with ⟨rfl, rfl⟩
      exact ⟨rfl, rfl⟩

theorem qstr_pd :
    ∀ (s1 s2 : String) (r1 r2 : List Char),
      qstr s1 ++ r1 = qstr s2 ++ r2 → s1 = s2 ∧ r1 = r2 := by
  intro s1 s2 r1 r2 h
  unfold qstr at h
  simp only [List.cons_append, List.append_assoc, List.singleton_append] at h
  injection h with _ h'
  rcases escapeList_quote_inj _ _ _ _ h' with ⟨hd, hr⟩
  exact ⟨string_mk_inj hd, hr⟩

theorem joinComma_pd {α : Type} (enc : α → List Char)
    (pd : ∀ (a1 a2 : α) (r1 r2 : List Char), enc a1 ++ r1 = enc a2 ++ r2 → a1 = a2 ∧ r1 = r2)
    (hhead : ∀ a : α, ∃ c t, enc a = c :: t ∧ c ≠ ']' ∧ c ≠ ',') :
    ∀ (l1 l2 : List α) (r1 r2 : List Char),
      joinComma (l1.map enc) ++ ']' :: r1 = joinComma (l2.map enc) ++ ']' :: r2 →
      l1 = l2 ∧ r1 = r2 := by
  intro l1
  induction l1 with
  | nil =>
    intro l2 r1 r2 h
    cases l2 with
    | nil =>
      simp only [List.map_nil, joinComma, List.nil_append] at h
      injection h with _ h'
      exact ⟨rfl, h'⟩
    | cons b bs =>
      exfalso
      obtain ⟨c, t, he, hc1, _⟩ := hhead b
      cases bs with
      | nil =>
        simp only [List.map_nil, List.map_cons, joinComma, List.nil_append, he,
          List.cons_append] at h
        injection h with hh _
        exact hc1 hh.symm
      | cons b2 bs2 =>
        simp only [List.map_nil, List.map_cons, joinComma, List.nil_append, he,
          List.cons_append] at h
        injection h with hh _
        exact hc1 hh.symm
  | cons a as ih =>
    intro l2 r1 r2 h
    cases l2 with
    | nil =>
      exfalso
      obtain ⟨c, t, he, hc1, _⟩ := hhead a
      cases as with
      | nil =>
        simp only [List.map_nil, List.map_cons, joinComma, List.nil_append, he,
          List.cons_append] at h
        injection h with hh _
        exact hc1 hh
      | cons a2 as2 =>
        simp only [List.map_nil, List.map_cons, joinComma, List.nil_append, he,
          List.cons_append] at h
        injection h with hh _
        exact hc1 hh
    | cons b bs =>
      have hsplit : ∀ (x : α) (xs : List α), ∃ R,
          joinComma ((x :: xs).map enc) = enc x ++ R ∧
          (xs = [] ∧ R = [] ∨ ∃ xs2 xtl, xs = xs2 :: xtl ∧ R = ',' :: joinComma (xs.map enc)) := by
        intro x xs
        cases xs with
        | nil => exact ⟨[], by simp [joinComma], Or.inl ⟨rfl, rfl⟩⟩
        | cons y ys =>
          refine ⟨',' :: joinComma ((y :: ys).map enc), by simp [joinComma], ?_⟩
          exact Or.inr ⟨y, ys, rfl, rfl⟩
      obtain ⟨R1, he1, hsh1⟩ := hsplit a as
      obtain ⟨R2, he2, hsh2⟩ := hsplit b bs
      rw [he1, he2, List.append_assoc, List.append_assoc] at h
      rcases pd _ _ _ _ h with ⟨rfl, htail⟩
      rcases hsh1 with ⟨rfl, rfl⟩ | ⟨x2, xtl, rfl, rfl⟩ <;>
        rcases hsh2 with ⟨hbs, rfl⟩ | ⟨y2, ytl, hbs, rfl⟩
      · rw [List.nil_append, List.nil_append] at htail
        injection htail with _ h'
        exact ⟨by rw [hbs], h'⟩
      · exfalso
        rw [List.nil_append, List.cons_append] at htail
        injection htail with hh _
        cases hh
      · exfalso
        rw [List.nil_append, List.cons_append] at htail
        injection htail with hh _
        cases hh
      · rw [List.cons_append, List.cons_append] at htail
        injection htail with _ h'
        subst hbs
        rcases ih (y2 :: ytl) r1 r2 h' with ⟨heq, hr⟩
        exact ⟨by rw [heq], hr⟩

theorem qstr_head (s : String) : ∃ c t, qstr s = c :: t ∧ c ≠ ']' ∧ c ≠ ',' :=
  ⟨'"', escapeList s.data ++ ['"'], rfl, by decide, by decide⟩

theorem strArr_pd :
    ∀ (l1 l2 : List String) (r1 r2 : List Char),
      strArr l1 ++ r1 = strArr l2 ++ r2 → l1 = l2 ∧ r1 = r2 := by
  intro l1 l2 r1 r2 h
  unfold strArr arrEnc at h
  simp only [List.cons_append, List.append_assoc, List.singleton_append] at h
  injection h with _ h'
  exact joinComma_pd qstr qstr_pd qstr_head l1 l2 r1 r2 h'

theorem inputEnc_pd :
    ∀ (i1 i2 : TaskKeyInput) (r1 r2 : List Char),
      inputEnc i1 ++ r1 = inputEnc i2 ++ r2 → i1 = i2 ∧ r1 = r2 := by
  intro i1 i2 r1 r2 h
  unfold inputEnc at h
  simp only [List.append_assoc, List.singleton_append] at h
  have h1 := List.append_cancel_left h
  rcases qstr_pd _ _ _ _ h1 with ⟨hp, h2⟩
  have h3 := List.append_cancel_left h2
  rcases qstr_pd _ _ _ _ h3 with ⟨hd, h4⟩
  injection h4 with _ hr
  cases i1
  cases i2
  simp_all

theorem inputEnc_head (i : TaskKeyInput) : ∃ c t, inputEnc i = c :: t ∧ c ≠ ']' ∧ c ≠ ',' :=
  ⟨'\x7b', "\"path\":".data ++ qstr i.path ++ (",\"digest\":".data ++ (qstr i.digest ++ ['\x7d'])),
    by unfold inputEnc; rfl, by decide, by decide⟩

theorem inputsEnc_pd :
    ∀ (l1 l2 : List TaskKeyInput) (r1 r2 : List Char),
      inputsEnc l1 ++ r1 = inputsEnc l2 ++ r2 → l1 = l2 ∧ r1 = r2 := by
  intro l1 l2 r1 r2 h
  unfold inputsEnc arrEnc at h
  simp only [List.cons_append, List.append_assoc, List.singleton_append] at h
  injection h with _ h'
  exact joinComma_pd inputEnc inputEnc_pd inputEnc_head l1 l2 r1 r2 h'

theorem depsEnc_pd :
    ∀ (l1 l2 : List String) (r1 r2 : List Char),
      depsEnc l1 ++ r1 = depsEnc l2 ++ r2 → l1 = l2 ∧ r1 = r2 := by
  intro l1 l2 r1 r2 h
  unfold depsEnc at h
  have hnull : "null".data = 'n' :: ['u', 'l', 'l'] := rfl
  by_cases h1 : l1 = [] <;> by_cases h2 : l2 = []
  · rw [if_pos h1, if_pos h2] at h
    exact ⟨h1.trans h2.symm, List.append_cancel_left h⟩
  · exfalso
    rw [if_pos h1, if_neg h2] at h
    obtain ⟨b, bs, rfl⟩ := List.exists_cons_of_ne_nil h2
    rw [hnull] at h
    unfold strArr arrEnc at h
    simp only [List.cons_append] at h
    injection h with hh _
    cases hh
  · exfalso
    rw [if_neg h1, if_pos h2] at h
    obtain ⟨b, bs, rfl⟩ := List.exists_cons_of_ne_nil h1
    rw [hnull] at h
    unfold strArr arrEnc at h
    simp only [List.cons_append] at h
    injection h with hh _
    cases hh
  · rw [if_neg h1, if_neg h2] at h
    exact strArr_pd l1 l2 r1 r2 h

theorem marshalTaskPayload_inj (p1 p2 : TaskKeyPayload) (hv : p1.version = p2.version)
    (h : marshalTaskPayload p1 = marshalTaskPayload p2) : p1 = p2 := by
  unfold marshalTaskPayload at h
  simp only [List.append_assoc, List.singleton_append] at h
  have h0 := List.append_cancel_left h
  rw [hv] at h0
  have h1 := List.append_cancel_left h0
  rcases qstr_pd _ _ _ _ (List.append_cancel_left h1) with ⟨hcmd, h2⟩
  rcases depsEnc_pd _ _ _ _ (List.append_cancel_left h2) with ⟨hdep, h3⟩
  rcases strArr_pd _ _ _ _ (List.append_cancel_left h3) with ⟨hout, h4⟩
  rcases inputsEnc_pd _ _ _ _ (List.append_cancel_left h4) with ⟨hin, _⟩
  cases p1
  cases p2
  simp_all

/-! ### Determinism and sensitivity of the task key -/

theorem consistent_update (fs : GoFS) (c : FileStampCache) (p d : String)
    (hc : Consistent fs c) (hd : fs.hashFile p = .ok d) :
    Consistent fs (FileStampCache.Update fs c p d) := by
  intro q d' hq
  unfold FileStampCache.Update at hq
  cases hst : fs.statStamp p with
  | none =>
    rw [hst] at hq
    exact hc q d' hq
  | some st =>
    rw [hst] at hq
    unfold FileStampCache.Lookup at hq
    dsimp only at hq
    by_cases hqp : q = p
    · subst hqp
      rw [if_pos rfl] at hq
      dsimp only at hq
      cases hst2 : fs.statStamp q with
      | none => rw [hst2] at hq; cases hq
      | some cur =>
        rw [hst2] at hq
        dsimp only at hq
        by_cases he : st = cur
        · rw [if_pos he] at hq
          injection hq with h'
          rw [← h']
          exact hd
        · rw [if_neg he] at hq
          cases hq
    · rw [if_neg hqp] at hq
      apply hc q d'
      unfold FileStampCache.Lookup
      exact hq

theorem digestsLoop_cons_spec (fs : GoFS) (c : FileStampCache) (p : String)
    (rest : List String) (l : List TaskKeyInput) (c' : FileStampCache)
    (hc : Consistent fs c) (h : digestsLoop fs c (p :: rest) = .ok (l, c')) :
    ∃ d t cn, l = ⟨p, d⟩ :: t ∧ fs.hashFile p = .ok d ∧ Consistent fs cn ∧
      digestsLoop fs cn rest = .ok (t, c') := by
  unfold digestsLoop at h
  cases hl : FileStampCache.Lookup fs c p with
  | some d =>
    simp only [hl] at h
    cases hr : digestsLoop fs c rest with
    | error e => simp only [hr] at h; cases h
    | ok pr =>
      obtain ⟨t, cn'⟩ := pr
      simp only [hr] at h
      injection h with h'
      injection h' with hA hB
      exact ⟨d, t, c, hA.symm, hc p d hl, hc, by rw [hr, hB]⟩
  | none =>
    simp only [hl] at h
    cases hh : fs.hashFile p with
    | error e => simp only [hh] at h; cases h
    | ok d =>
      simp only [hh] at h
      cases hr : digestsLoop fs (FileStampCache.Update fs c p d) rest with
      | error e => simp only [hr] at h; cases h
      | ok pr =>
        obtain ⟨t, cn'⟩ := pr
        simp only [hr] at h
        injection h with h'
        injection h' with hA hB
        exact ⟨d, t, FileStampCache.Update fs c p d, hA.symm, rfl,
          consistent_update fs c p d hc hh, by rw [hr, hB]⟩

theorem digestsLoop_det (fs : GoFS) :
    ∀ (ps : List String) (c1 c2 : FileStampCache), Consistent fs c1 → Consistent fs c2 →
      ∀ l1 c1' l2 c2', digestsLoop fs c1 ps = .ok (l1, c1') →
        digestsLoop fs c2 ps = .ok (l2, c2') → l1 = l2 := by
  intro ps
  induction ps with
  | nil =>
    intro c1 c2 _ _ l1 c1' l2 c2' h1 h2
    unfold digestsLoop at h1 h2
    injection h1 with h1'
    injection h2 with h2'
    injection h1' with hA _
    injection h2' with hB _
    rw [← hA, ← hB]
  | cons p rest ih =>
    intro c1 c2 hc1 hc2 l1 c1' l2 c2' h1 h2
    rcases digestsLoop_cons_spec fs c1 p rest l1 c1' hc1 h1 with
      ⟨d1, t1, cn1, hl1, hh1, hcn1, hr1⟩
    rcases digestsLoop_cons_spec fs c2 p rest l2 c2' hc2 h2 with
      ⟨d2, t2, cn2, hl2, hh2, hcn2, hr2⟩
    have hd : d1 = d2 := by
      rw [hh1] at hh2
      injection hh2
    have ht := ih cn1 cn2 hcn1 hcn2 t1 c1' t2 c2' hr1 hr2
    rw [hl1, hl2, hd, ht]

theorem computeTaskPayload_spec (fs : GoFS) (t : GoTask) (D : List String)
    (c : FileStampCache) (p : TaskKeyPayload) (c' : FileStampCache)
    (h : computeTaskPayload fs t D c = .ok (p, c')) :
    p.version = 1 ∧ p.command = t.command ∧ p.dependencies = sortStrings D ∧
    p.outputs = sortStrings (t.outputs.map trimDotSlash) := by
  unfold computeTaskPayload at h
  cases he : ExpandFileSpecs fs t.inputs with
  | error e => simp only [he] at h; cases h
  | ok ex =>
    simp only [he] at h
    cases hd : digestsLoop fs c (sortStrings ex) with
    | error e => simp only [hd] at h; cases h
    | ok pr =>
      obtain ⟨ti, st⟩ := pr
      simp only [hd] at h
      injection h with h'
      injection h' with hA _
      rw [← hA]
      exact ⟨rfl, rfl, rfl, rfl⟩

theorem computeTaskPayload_det (fs : GoFS) (t : GoTask) (D : List String)
    (c1 c2 : FileStampCache) (hc1 : Consistent fs c1) (hc2 : Consistent fs c2)
    (p1 p2 : TaskKeyPayload) (s1 s2 : FileStampCache)
    (h1 : computeTaskPayload fs t D c1 = .ok (p1, s1))
    (h2 : computeTaskPayload fs t D c2 = .ok (p2, s2)) : p1 = p2 := by
  unfold computeTaskPayload at h1 h2
  cases he : ExpandFileSpecs fs t.inputs with
  | error e => simp only [he] at h1; cases h1
  | ok ex =>
    simp only [he] at h1 h2
    cases hd1 : digestsLoop fs c1 (sortStrings ex) with
    | error e => simp only [hd1] at h1; cases h1
    | ok pr1 =>
      obtain ⟨ti1, st1⟩ := pr1
      simp only [hd1] at h1
      cases hd2 : digestsLoop fs c2 (sortStrings ex) with
      | error e => simp only [hd2] at h2; cases h2
      | ok pr2 =>
        obtain ⟨ti2, st2⟩ := pr2
        simp only [hd2] at h2
        injection h1 with h1'
        injection h2 with h2'
        injection h1' with hA _
        injection h2' with hB _
        have : ti1 = ti2 :=
          digestsLoop_det fs (sortStrings ex) c1 c2 hc1 hc2 ti1 st1 ti2 st2 hd1 hd2
        rw [← hA, ← hB, this]

/-- C1: key determinism: with the file system unchanged, two runs of
ComputeTaskKey for the same task and dependency keys return bit-identical
key and canonical bytes, whatever the (sound) states of the stamp cache;
the canonical bytes are the JSON payload with no trailing newline (they
end at the closing brace) and with HTML escaping disabled (the characters
that encoding/json would escape in HTML mode pass through verbatim). -/
theorem compute_task_key_deterministic (hash : List Char → String) (fs : GoFS) (t : GoTask)
    (D : List String) (c1 c2 : FileStampCache) (hc1 : Consistent fs c1)
    (hc2 : Consistent fs c2) (k1 k2 : String) (b1 b2 : List Char) (s1 s2 : FileStampCache)
    (h1 : ComputeTaskKey hash fs t D c1 = .ok (k1, b1, s1))
    (h2 : ComputeTaskKey hash fs t D c2 = .ok (k2, b2, s2)) :
    k1 = k2 ∧ b1 = b2 ∧ b1.getLast? = some '\x7d' ∧
    escChar '<' = ['<'] ∧ escChar '>' = ['>'] ∧ escChar '&' = ['&'] := by
  unfold ComputeTaskKey at h1 h2
  cases hp1 : computeTaskPayload fs t D c1 with
  | error e => simp only [hp1] at h1; cases h1
  | ok pr1 =>
    obtain ⟨p1, st1⟩ := pr1
    simp only [hp1] at h1
    cases hp2 : computeTaskPayload fs t D c2 with
    | error e => simp only [hp2] at h2; cases h2
    | ok pr2 =>
      obtain ⟨p2, st2⟩ := pr2
      simp only [hp2] at h2
      have hpp : p1 = p2 :=
        computeTaskPayload_det fs t D c1 c2 hc1 hc2 p1 p2 st1 st2 hp1 hp2
      injection h1 with h1'
      injection h2 with h2'
      injection h1' with hk1 h1''
      injection h2' with hk2 h2''
      injection h1'' with hb1 _
      injection h2'' with hb2 _
      have hlast : (marshalTaskPayload p1).getLast? = some '\x7d' := by
        unfold marshalTaskPayload
        rw [List.getLast?_concat]
      refine ⟨?_, ?_, ?_, rfl, rfl, rfl⟩
      · rw [← hk1, ← hk2, hpp]
      · rw [← hb1, ← hb2, hpp]
      · rw [← hb1]
        exact hlast

/-- Witness for compute_task_key_deterministic: two runs on the empty
stamp cache for a task with no inputs. -/
theorem compute_task_key_deterministic_witness :
    mkHash (marshalTaskPayload
        { version := 1, command := "a", dependencies := [], outputs := [], inputs := [] }) =
      mkHash (marshalTaskPayload
        { version := 1, command := "a", dependencies := [], outputs := [], inputs := [] }) ∧
    marshalTaskPayload
        { version := 1, command := "a", dependencies := [], outputs := [], inputs := [] } =
      marshalTaskPayload
        { version := 1, command := "a", dependencies := [], outputs := [], inputs := [] } ∧
    (marshalTaskPayload
        { version := 1, command := "a", dependencies := [], outputs := [],
          inputs := [] }).getLast? = some '\x7d' ∧
    escChar '<' = ['<'] ∧ escChar '>' = ['>'] ∧ escChar '&' = ['&'] :=
  compute_task_key_deterministic mkHash emptyFS taskA [] emptyStamps emptyStamps
    (by intro p d h; simp [FileStampCache.Lookup, emptyStamps] at h)
    (by intro p d h; simp [FileStampCache.Lookup, emptyStamps] at h)
    _ _ _ _ _ _ rfl rfl

/-- C5: key sensitivity: under an injective hash, two successful key
computations yield different keys whenever the command differs, the
normalised sorted declared output-spec lists differ, the multisets of
dependency keys differ, or the computed input (path, digest) lists differ
(in particular when any one input digest changes). -/
theorem compute_task_key_sensitivity (hash : List Char → String)
    (hinj : Function.Injective hash) (fs1 fs2 : GoFS) (t1 t2 : GoTask)
    (D1 D2 : List String) (c1 c2 : FileStampCache) (p1 p2 : TaskKeyPayload)
    (s1 s2 : FileStampCache) (k1 k2 : String) (b1 b2 : List Char)
    (hp1 : computeTaskPayload fs1 t1 D1 c1 = .ok (p1, s1))
    (hp2 : computeTaskPayload fs2 t2 D2 c2 = .ok (p2, s2))
    (hk1 : ComputeTaskKey hash fs1 t1 D1 c1 = .ok (k1, b1, s1))
    (hk2 : ComputeTaskKey hash fs2 t2 D2 c2 = .ok (k2, b2, s2))
    (hdiff : t1.command ≠ t2.command ∨
      sortStrings (t1.outputs.map trimDotSlash) ≠ sortStrings (t2.outputs.map trimDotSlash) ∨
      (D1 : Multiset String) ≠ (D2 : Multiset String) ∨
      p1.inputs ≠ p2.inputs) :
    k1 ≠ k2 := by
  obtain ⟨hv1, hc1', hd1, ho1⟩ :=
    computeTaskPayload_spec fs1 t1 D1 c1 p1 s1 hp1
  obtain ⟨hv2, hc2', hd2, ho2⟩ :=
    computeTaskPayload_spec fs2 t2 D2 c2 p2 s2 hp2
  unfold ComputeTaskKey at hk1 hk2
  rw [hp1] at hk1
  rw [hp2] at hk2
  injection hk1 with hk1'
  injection hk2 with hk2'
  injection hk1' with hK1 _
  injection hk2' with hK2 _
  have hne : p1 ≠ p2 := by
    rcases hdiff with h | h | h | h
    · intro he
      exact h (by rw [← hc1', ← hc2', he])
    · intro he
      exact h (by rw [← ho1, ← ho2, he])
    · intro he
      apply h
      have hsort : sortStrings D1 = sortStrings D2 := by rw [← hd1, ← hd2, he]
      have hperm : D1.Perm D2 :=
        ((sortStrings_perm D1).symm.trans (hsort ▸ sortStrings_perm D2))
      exact Multiset.coe_eq_coe.mpr hperm
    · intro he
      exact h (by rw [he])
  intro hk
  apply hne
  apply marshalTaskPayload_inj p1 p2 (by rw [hv1, hv2])
  apply hinj
  rw [hK1, hK2, hk]

/-- Witness for compute_task_key_sensitivity: two no-input tasks that
differ only in the command get different keys under an injective hash. -/
theorem compute_task_key_sensitivity_witness :
    mkHash (marshalTaskPayload
        { version := 1, command := "a", dependencies := [], outputs := [], inputs := [] }) ≠
      mkHash (marshalTaskPayload
        { version := 1, command := "b", dependencies := [], outputs := [], inputs := [] }) :=
  compute_task_key_sensitivity mkHash (fun a b h => by injection h)
    emptyFS emptyFS taskA taskB [] [] emptyStamps emptyStamps
    _ _ _ _ _ _ _ _ rfl rfl rfl rfl (Or.inl (by decide))

/-! ### At-most-once execution of the memo -/

theorem memoInv_init (E : Type) (n : Nat) : MemoInv (memoInit E n) := by
  refine ⟨rfl, ?_, ?_, ?_, ?_⟩
  · intro h; cases h
  · intro e h; cases h
  · intro e h; cases h
  · intro e he
    simp [memoInit] at he

theorem memoStep_inv {E : Type} {s s' : MemoState E} (hs : MemoInv s) (h : MemoStep s s') :
    MemoInv s' := by
  obtain ⟨h1, h2, h3, h4, h5⟩ := hs
  cases h with
  | tryGetHit e he hn =>
    refine ⟨?_, ?_, ?_, ?_, ?_⟩
    · dsimp only; exact h1
    · dsimp only; exact h2
    · dsimp only; exact h3
    · dsimp only; exact h4
    · dsimp only
      intro e' he'
      rcases Multiset.mem_cons.mp he' with rfl | he''
      · exact he
      · exact h5 e' he''
  | tryGetMiss hm hn =>
    exact ⟨h1, h2, h3, h4, h5⟩
  | flightLead hr hn =>
    refine ⟨?_, ?_, ?_, ?_, ?_⟩
    · dsimp only
      rw [h1]
      cases s.memo
      · rw [hr]
      · rfl
    · dsimp only; intro hc; cases hc
    · dsimp only; intro e hc; cases hc
    · dsimp only; intro e hc; cases hc
    · dsimp only; exact h5
  | flightJoin p hr hn =>
    exact ⟨h1, h2, h3, h4, h5⟩
  | recheckHit e hr hm =>
    refine ⟨?_, ?_, ?_, ?_, ?_⟩
    · dsimp only
      rw [h1, hm]
    · dsimp only; intro hc; cases hc
    · dsimp only; intro e' hc; cases hc
    · dsimp only; intro e' hc; cases hc
    · dsimp only
      intro e' he'
      rcases Multiset.mem_add.mp he' with he'' | he''
      · rw [hm, Multiset.eq_of_mem_replicate he'']
      · exact h5 e' he''
  | recheckMiss hr hm =>
    refine ⟨?_, ?_, ?_, ?_, ?_⟩
    · dsimp only
      rw [h1, hm, hr]
    · dsimp only; intro _; exact hm
    · dsimp only; intro e hc; simp at hc
    · dsimp only; intro e hc; simp at hc
    · dsimp only; exact h5
  | runFn e hr =>
    have hm : s.memo = none := h2 hr
    refine ⟨?_, ?_, ?_, ?_, ?_⟩
    · dsimp only
      rw [h1, hm, hr]
    · dsimp only; intro hc; simp at hc
    · dsimp only; intro e' _; exact hm
    · dsimp only; intro e' hc; simp at hc
    · dsimp only; exact h5
  | storeResult e hr =>
    have hm : s.memo = none := h3 e hr
    refine ⟨?_, ?_, ?_, ?_, ?_⟩
    · dsimp only
      rw [h1, hm, hr]
    · dsimp only; intro hc; simp at hc
    · dsimp only; intro e' hc; simp at hc
    · dsimp only
      intro e' hc
      injection hc with hc'
      injection hc' with hc''
      rw [hc'']
    · dsimp only
      intro e' he'
      have hq := h5 e' he'
      rw [hm] at hq
      cases hq
  | flightDone e hr =>
    have hm : s.memo = some e := h4 e hr
    refine ⟨?_, ?_, ?_, ?_, ?_⟩
    · dsimp only
      rw [h1, hm]
    · dsimp only; intro hc; cases hc
    · dsimp only; intro e' hc; cases hc
    · dsimp only; intro e' hc; cases hc
    · dsimp only
      intro e' he'
      rcases Multiset.mem_add.mp he' with he'' | he''
      · rw [hm, Multiset.eq_of_mem_replicate he'']
      · exact h5 e' he''

theorem memoReachable_inv {E : Type} (n : Nat) (s : MemoState E) (h : MemoReachable n s) :
    MemoInv s := by
  induction h with
  | refl => exact memoInv_init E n
  | tail _ hstep ih => exact memoStep_inv ih hstep

/-- C2: at-most-once execution: in every state reachable by interleaving
any number of concurrent TaskMemo.Do callers for a task id, the task body
has run at most once, and all callers that returned observed the same
stored result. -/
theorem memo_at_most_once {E : Type} (n : Nat) (s : MemoState E) (h : MemoReachable n s) :
    s.runs ≤ 1 ∧ ∀ e1 e2, e1 ∈ s.finished → e2 ∈ s.finished → e1 = e2 := by
  obtain ⟨h1, _, _, _, h5⟩ := memoReachable_inv n s h
  constructor
  · rw [h1]
    cases hm : s.memo
    · cases hr : s.runner with
      | none => exact Nat.zero_le 1
      | some p =>
        cases p
        · exact Nat.zero_le 1
        · exact Nat.zero_le 1
        · exact Nat.le_refl 1
        · exact Nat.le_refl 1
    · exact Nat.le_refl 1
  · intro e1 e2 he1 he2
    have q1 := h5 e1 he1
    have q2 := h5 e2 he2
    rw [q1] at q2
    exact Option.some.inj q2

/-- Witness for memo_at_most_once: a complete interleaving of two callers
in which the first runs the body and stores result 0 and the second then
hits the memo; the body ran once and both callers observed 0. -/
theorem memo_at_most_once_witness :
    (⟨some 0, none, 0, 0, 0,
      0 ::ₘ (Multiset.replicate (0 + 1) 0 + 0), 1⟩ : MemoState Nat).runs ≤ 1 := by
  have t0 : MemoReachable 2 (memoInit Nat 2) := Relation.ReflTransGen.refl
  have t1 : MemoReachable 2 ⟨none, none, 1, 1, 0, 0, 0⟩ :=
    t0.tail (MemoStep.tryGetMiss _ rfl (by decide))
  have t2 : MemoReachable 2 ⟨none, some .entered, 1, 0, 0, 0, 0⟩ :=
    t1.tail (MemoStep.flightLead _ rfl (by decide))
  have t3 : MemoReachable 2 ⟨none, some .running, 1, 0, 0, 0, 0⟩ :=
    t2.tail (MemoStep.recheckMiss _ rfl rfl)
  have t4 : MemoReachable 2 ⟨none, some (.ran 0), 1, 0, 0, 0, 1⟩ :=
    t3.tail (MemoStep.runFn _ 0 rfl)
  have t5 : MemoReachable 2 ⟨some 0, some (.stored 0), 1, 0, 0, 0, 1⟩ :=
    t4.tail (MemoStep.storeResult _ 0 rfl)
  have t6 : MemoReachable 2 ⟨some 0, none, 1, 0, 0, Multiset.replicate (0 + 1) 0 + 0, 1⟩ :=
    t5.tail (MemoStep.flightDone _ 0 rfl)
  have t7 : MemoReachable 2
      ⟨some 0, none, 0, 0, 0, 0 ::ₘ (Multiset.replicate (0 + 1) 0 + 0), 1⟩ :=
    t6.tail (MemoStep.tryGetHit _ 0 rfl (by decide))
  exact (memo_at_most_once 2 _ t7).1

end BuildTool
